import Mathlib

/-!
Shallow embedding of the `bf_interpreter` Rust crate: the lexer
(`src/lexer.rs`), the optimizing compiler (`src/optimizer.rs`) and the
bytecode interpreter (`src/interpreter.rs`), together with theorems about
the claims of the specification.
-/

set_option maxRecDepth 10000

/-- `error.rs`: a 1-based source position. -/
structure Position where
  line : Nat
  column : Nat
deriving DecidableEq, Repr

/-- `error.rs`: `impl Default for Position` gives line 1, column 1. -/
def Position.default : Position := ⟨1, 1⟩

/-- `error.rs`: the error kinds of `BrainfuckError` (the `String` payloads
carry human-readable messages). -/
inductive BrainfuckError where
  | UnmatchedBracket (position : Position)
  | InvalidCharacter (character : Char) (position : Position)
  | MemoryOutOfBounds (address : Nat)
  | IoError (message : String)
  | ParseError (position : Position) (message : String)
  | RuntimeError (message : String)
deriving DecidableEq, Repr

/-- `lexer.rs`: the eight token kinds. -/
inductive TokenKind where
  | MoveRight
  | MoveLeft
  | Increment
  | Decrement
  | Output
  | Input
  | LoopStart
  | LoopEnd
deriving DecidableEq, Repr

/-- `lexer.rs`: `TokenKind::from_char`. -/
def TokenKind.from_char (c : Char) : Option TokenKind :=
  match c with
  | '>' => some .MoveRight
  | '<' => some .MoveLeft
  | '+' => some .Increment
  | '-' => some .Decrement
  | '.' => some .Output
  | ',' => some .Input
  | '[' => some .LoopStart
  | ']' => some .LoopEnd
  | _ => none

/-- `lexer.rs`: `TokenKind::to_char`. -/
def TokenKind.to_char : TokenKind → Char
  | .MoveRight => '>'
  | .MoveLeft => '<'
  | .Increment => '+'
  | .Decrement => '-'
  | .Output => '.'
  | .Input => ','
  | .LoopStart => '['
  | .LoopEnd => ']'

/-- `lexer.rs`: a token with its attached position. -/
structure Token where
  kind : TokenKind
  position : Position
deriving DecidableEq, Repr

/-- `lexer.rs`: `Lexer::update_position` — a newline increments the line and
resets the column to 1, any other character advances the column. -/
def update_position (pos : Position) (c : Char) : Position :=
  if c = '\n' then ⟨pos.line + 1, 1⟩ else ⟨pos.line, pos.column + 1⟩

/-- `lexer.rs`: the token stream produced by repeatedly calling
`Lexer::next_token` on a character sequence starting from cursor `pos`.
Each character is consumed, the cursor is updated (`update_position` is
called before the token is built, exactly as in the source), and the
updated cursor is attached to the token when the character is one of the
eight operators; other characters are skipped. -/
def tokenize : List Char → Position → List Token
  | [], _ => []
  | c :: rest, pos =>
    let pos2 := update_position pos c
    match TokenKind.from_char c with
    | some kind => ⟨kind, pos2⟩ :: tokenize rest pos2
    | none => tokenize rest pos2

/-- `optimizer.rs`: the run-length-encoded instruction set. `Increment` and
`Decrement` counts are `u8` in the source (always < 256, wrapped at every
merge); the other counts are `usize`. -/
inductive Instruction where
  | MoveRight (n : Nat)
  | MoveLeft (n : Nat)
  | Increment (n : Nat)
  | Decrement (n : Nat)
  | Output (n : Nat)
  | Input (n : Nat)
  | JumpForward (target : Nat)
  | JumpBackward (target : Nat)
deriving DecidableEq, Repr

/-- `optimizer.rs`: the compiler state — the emitted instructions and the
stack of pending loop-start indices (list head = stack top). -/
structure Optimizer where
  instructions : List Instruction
  jump_stack : List Nat
deriving DecidableEq, Repr

namespace Optimizer

/-- `optimizer.rs`: `Optimizer::new`. -/
def new : Optimizer := ⟨[], []⟩

/-- `optimizer.rs`: `Optimizer::optimize_move` — merge into a trailing
move instruction of the same direction, otherwise push a new one. -/
def optimize_move (self : Optimizer) (count : Nat) (right : Bool) : Optimizer :=
  match self.instructions.getLast?, right with
  | some (.MoveRight n), true =>
      { self with instructions :=
          self.instructions.set (self.instructions.length - 1) (.MoveRight (n + count)) }
  | some (.MoveLeft n), false =>
      { self with instructions :=
          self.instructions.set (self.instructions.length - 1) (.MoveLeft (n + count)) }
  | _, _ =>
      { self with instructions :=
          self.instructions ++ [if right then .MoveRight count else .MoveLeft count] }

/-- `optimizer.rs`: `Optimizer::optimize_arithmetic` — merge with `u8`
wrapping addition, otherwise push a new instruction. -/
def optimize_arithmetic (self : Optimizer) (count : Nat) (increment : Bool) : Optimizer :=
  match self.instructions.getLast?, increment with
  | some (.Increment n), true =>
      { self with instructions :=
          self.instructions.set (self.instructions.length - 1) (.Increment ((n + count) % 256)) }
  | some (.Decrement n), false =>
      { self with instructions :=
          self.instructions.set (self.instructions.length - 1) (.Decrement ((n + count) % 256)) }
  | _, _ =>
      { self with instructions :=
          self.instructions ++ [if increment then .Increment count else .Decrement count] }

/-- `optimizer.rs`: `Optimizer::optimize_io`. -/
def optimize_io (self : Optimizer) (count : Nat) (output : Bool) : Optimizer :=
  match self.instructions.getLast?, output with
  | some (.Output n), true =>
      { self with instructions :=
          self.instructions.set (self.instructions.length - 1) (.Output (n + count)) }
  | some (.Input n), false =>
      { self with instructions :=
          self.instructions.set (self.instructions.length - 1) (.Input (n + count)) }
  | _, _ =>
      { self with instructions :=
          self.instructions ++ [if output then .Output count else .Input count] }

/-- `optimizer.rs`: `Optimizer::handle_loop_start` — push the index of a
new placeholder forward jump. -/
def handle_loop_start (self : Optimizer) : Optimizer :=
  { instructions := self.instructions ++ [.JumpForward 0],
    jump_stack := self.instructions.length :: self.jump_stack }

/-- `optimizer.rs`: `Optimizer::handle_loop_end` — pop a loop start, patch
its placeholder to the current length (the index the backward jump is about
to occupy) and append the backward jump; error when the stack is empty. -/
def handle_loop_end (self : Optimizer) (position : Position) :
    Except BrainfuckError Optimizer :=
  match self.jump_stack with
  | start_index :: rest =>
      let patched :=
        match self.instructions.get? start_index with
        | some (.JumpForward _) =>
            self.instructions.set start_index (.JumpForward self.instructions.length)
        | _ => self.instructions
      .ok { instructions := patched ++ [.JumpBackward start_index], jump_stack := rest }
  | [] => .error (.UnmatchedBracket position)

/-- `optimizer.rs`: `Optimizer::process_token`. -/
def process_token (self : Optimizer) (token : Token) : Except BrainfuckError Optimizer :=
  match token.kind with
  | .MoveRight => .ok (self.optimize_move 1 true)
  | .MoveLeft => .ok (self.optimize_move 1 false)
  | .Increment => .ok (self.optimize_arithmetic 1 true)
  | .Decrement => .ok (self.optimize_arithmetic 1 false)
  | .Output => .ok (self.optimize_io 1 true)
  | .Input => .ok (self.optimize_io 1 false)
  | .LoopStart => .ok self.handle_loop_start
  | .LoopEnd => self.handle_loop_end token.position

/-- `optimizer.rs`: the token-consuming loop of `Optimizer::optimize`. -/
def optimizeLoop : Optimizer → List Token → Except BrainfuckError Optimizer
  | st, [] => .ok st
  | st, t :: ts =>
    match st.process_token t with
    | .ok st2 => optimizeLoop st2 ts
    | .error e => .error e

/-- `optimizer.rs`: the best-effort position reported for a loop left open
at end of input — `Position::new(1, 1)` when some forward jump exists,
otherwise `Position::default()` (also (1, 1)). -/
def unmatchedPosition (l : List Instruction) : Position :=
  match l.find? (fun i => match i with | .JumpForward _ => true | _ => false) with
  | some _ => ⟨1, 1⟩
  | none => Position.default

/-- `optimizer.rs`: `Optimizer::optimize` — consume all tokens from a fresh
state, then fail if any loop is still open. -/
def optimize (tokens : List Token) : Except BrainfuckError (List Instruction) :=
  match optimizeLoop Optimizer.new tokens with
  | .error e => .error e
  | .ok st =>
    if st.jump_stack.isEmpty then .ok st.instructions
    else .error (.UnmatchedBracket (unmatchedPosition st.instructions))

end Optimizer

/-! ## Interpreter (`interpreter.rs`) -/

/-- The modulus of Rust's 64-bit `usize`: pointer arithmetic in the
interpreter uses `wrapping_add` / `wrapping_sub` at this width. -/
def USIZE : Nat := 2 ^ 64

/-- Rust `usize::wrapping_add`. -/
def usizeWrapAdd (a b : Nat) : Nat := (a + b) % USIZE

/-- Rust `usize::wrapping_sub`. -/
def usizeWrapSub (a b : Nat) : Nat := (a + (USIZE - b % USIZE)) % USIZE

/-- Rust `u8::wrapping_add` on byte values. -/
def u8WrapAdd (a b : Nat) : Nat := (a + b) % 256

/-- Rust `u8::wrapping_sub` on byte values. -/
def u8WrapSub (a b : Nat) : Nat := (a + (256 - b % 256)) % 256

/-- `interpreter.rs`: `InterpreterConfig`. -/
structure InterpreterConfig where
  memory_size : Nat
  debug : Bool
  optimize : Bool
deriving DecidableEq, Repr

/-- `interpreter.rs`: `impl Default for InterpreterConfig`. -/
def InterpreterConfig.default : InterpreterConfig :=
  { memory_size := 30000, debug := false, optimize := true }

/-- `main.rs`: the CLI validation that rejects a zero memory size before
compilation begins (`if cli.memory_size == 0 { return Err(..) }`). -/
def cliRejectsMemorySize (memory_size : Nat) : Bool := memory_size == 0

/-- `interpreter.rs`: the interpreter state. `input`/`output` model the
injected standard streams as byte lists: `input` is what remains to be
read, `output` is everything written so far. -/
structure Interpreter where
  instructions : List Instruction
  memory : List Nat
  pointer : Nat
  instruction_pointer : Nat
  config : InterpreterConfig
  input : List Nat
  output : List Nat
deriving DecidableEq, Repr

/-- A fatal outcome of one instruction: either a returned `BrainfuckError`,
or a Rust panic from an unguarded `self.memory[self.pointer]` index (the
interpreter performs such unchecked indexing in the arithmetic, I/O and
jump arms). -/
inductive Fault where
  | err (e : BrainfuckError)
  | indexOutOfBounds
deriving DecidableEq, Repr

/-- `interpreter.rs`: `Interpreter::new` — a zero-initialized tape of
`config.memory_size` cells, both pointers at 0. -/
def Interpreter.new (instructions : List Instruction) (config : InterpreterConfig)
    (input : List Nat) : Interpreter :=
  { instructions := instructions,
    memory := List.replicate config.memory_size 0,
    pointer := 0,
    instruction_pointer := 0,
    config := config,
    input := input,
    output := [] }

/-- `interpreter.rs`: the per-byte loop of the `Instruction::Input` arm —
each iteration reads one byte (an exhausted stream maps to an `IoError`,
as `read_exact` fails at end of input) and overwrites the current cell via
an unguarded index; the instruction pointer advances once after the loop. -/
def runInputLoop : Nat → Interpreter → Interpreter × Option Fault
  | 0, s => ({ s with instruction_pointer := s.instruction_pointer + 1 }, none)
  | n + 1, s =>
    match s.input with
    | [] => (s, some (.err (.IoError "Failed to read from stdin")))
    | b :: rest =>
      if s.pointer < s.memory.length then
        runInputLoop n { s with input := rest, memory := s.memory.set s.pointer b }
      else ({ s with input := rest }, some .indexOutOfBounds)

/-- `interpreter.rs`: `Interpreter::execute_instruction`. Mutations made
before a failure point persist in the returned state, exactly as they do
through `&mut self` in the source; a returned `Fault` is the `Err` value
(or a panic from unchecked indexing). -/
def execute_instruction (s : Interpreter) : Interpreter × Option Fault :=
  match s.instructions.get? s.instruction_pointer with
  | none => (s, some .indexOutOfBounds)
  | some inst =>
    match inst with
    | .MoveRight count =>
      let p2 := usizeWrapAdd s.pointer count
      if p2 ≥ s.memory.length then
        ({ s with pointer := p2 }, some (.err (.MemoryOutOfBounds p2)))
      else
        ({ s with pointer := p2, instruction_pointer := s.instruction_pointer + 1 }, none)
    | .MoveLeft count =>
      if s.pointer < count then
        (s, some (.err (.MemoryOutOfBounds (usizeWrapSub s.pointer count))))
      else
        ({ s with pointer := s.pointer - count,
                  instruction_pointer := s.instruction_pointer + 1 }, none)
    | .Increment count =>
      if s.pointer < s.memory.length then
        ({ s with memory := s.memory.set s.pointer (u8WrapAdd (s.memory.getD s.pointer 0) count),
                  instruction_pointer := s.instruction_pointer + 1 }, none)
      else (s, some .indexOutOfBounds)
    | .Decrement count =>
      if s.pointer < s.memory.length then
        ({ s with memory := s.memory.set s.pointer (u8WrapSub (s.memory.getD s.pointer 0) count),
                  instruction_pointer := s.instruction_pointer + 1 }, none)
      else (s, some .indexOutOfBounds)
    | .Output count =>
      if count = 0 then
        ({ s with instruction_pointer := s.instruction_pointer + 1 }, none)
      else if s.pointer < s.memory.length then
        ({ s with output := s.output ++ List.replicate count (s.memory.getD s.pointer 0),
                  instruction_pointer := s.instruction_pointer + 1 }, none)
      else (s, some .indexOutOfBounds)
    | .Input count => runInputLoop count s
    | .JumpForward target =>
      if s.pointer < s.memory.length then
        if s.memory.getD s.pointer 0 = 0 then
          ({ s with instruction_pointer := target }, none)
        else ({ s with instruction_pointer := s.instruction_pointer + 1 }, none)
      else (s, some .indexOutOfBounds)
    | .JumpBackward target =>
      if s.pointer < s.memory.length then
        if s.memory.getD s.pointer 0 = 0 then
          ({ s with instruction_pointer := s.instruction_pointer + 1 }, none)
        else ({ s with instruction_pointer := target }, none)
      else (s, some .indexOutOfBounds)

/-- Outcome of a fuelled run of the `while` loop of `Interpreter::run`. -/
inductive RunResult where
  | done
  | fault (f : Fault)
  | outOfFuel
deriving DecidableEq, Repr

/-- `interpreter.rs`: `Interpreter::run` — execute while the instruction
pointer is inside the program; `fuel` bounds the number of iterations of
the source's unbounded `while` loop. -/
def run : Nat → Interpreter → Interpreter × RunResult
  | 0, s =>
    if s.instruction_pointer < s.instructions.length then (s, .outOfFuel) else (s, .done)
  | fuel + 1, s =>
    if s.instruction_pointer < s.instructions.length then
      match execute_instruction s with
      | (s2, none) => run fuel s2
      | (s2, some f) => (s2, .fault f)
    else (s, .done)

/-- One successful iteration of the `while` loop of `Interpreter::run`:
the instruction pointer is inside the program and the instruction executes
without a fault. -/
def stepOk (s s2 : Interpreter) : Prop :=
  s.instruction_pointer < s.instructions.length ∧ execute_instruction s = (s2, none)

/-- Equality on `Except` results is decidable when it is on both sides. -/
instance {e a : Type} [DecidableEq e] [DecidableEq a] : DecidableEq (Except e a) :=
  fun x y =>
    match x, y with
    | .ok u, .ok v =>
      if h : u = v then isTrue (by rw [h]) else isFalse (by intro hc; cases hc; exact h rfl)
    | .error u, .error v =>
      if h : u = v then isTrue (by rw [h]) else isFalse (by intro hc; cases hc; exact h rfl)
    | .ok _, .error _ => isFalse (by intro hc; cases hc)
    | .error _, .ok _ => isFalse (by intro hc; cases hc)

/-! ## Claims -/

/-- C2: when the compiler consumes a loop-end token and the loop stack is
non-empty, it patches the popped forward jump's target to the
end-of-sequence index current at that moment — the index the backward-jump
instruction is about to occupy — and then appends a backward jump whose
target is the popped loop-start index. -/
theorem claim2_loop_end_patch (st : Optimizer) (pos : Position) (s t : Nat)
    (rest : List Nat) (hstack : st.jump_stack = s :: rest)
    (hfwd : st.instructions.get? s = some (.JumpForward t)) :
    st.handle_loop_end pos =
      .ok { instructions :=
              st.instructions.set s (.JumpForward st.instructions.length)
                ++ [.JumpBackward s],
            jump_stack := rest } := by
  unfold Optimizer.handle_loop_end
  rw [hstack]
  simp only [hfwd]

/-- Witness for C2 at a concrete compiler state: closing the loop of
`[+` at the moment a `]` arrives. -/
theorem claim2_loop_end_patch_witness :
    Optimizer.handle_loop_end ⟨[.JumpForward 0, .Increment 1], [0]⟩ ⟨1, 3⟩ =
      .ok { instructions := [.JumpForward 2, .Increment 1, .JumpBackward 0],
            jump_stack := [] } :=
  claim2_loop_end_patch ⟨[.JumpForward 0, .Increment 1], [0]⟩ ⟨1, 3⟩ 0 0 [] rfl rfl

/-- C3 (code bug): the lexer advances its cursor *before* attaching the
position to the token, so every token reports the position of the
character after its operator, not the operator's own location. On
`">+\n<"` the reported positions are (1,2), (1,3), (2,2), while the
operators sit at (1,1), (1,2), (2,1) — the values asserted by the
repository's own `test_lexer_position_tracking`. -/
theorem claim3_position_off_by_one :
    tokenize ">+\n<".data Position.default =
      [⟨.MoveRight, ⟨1, 2⟩⟩, ⟨.Increment, ⟨1, 3⟩⟩, ⟨.MoveLeft, ⟨2, 2⟩⟩]
    ∧ (tokenize ">".data Position.default).map Token.position ≠ [⟨1, 1⟩] := by
  decide

/-- C6: compiling `"["` fails with `UnmatchedBracket` (reported after all
tokens are consumed, at the best-effort position (1,1)), and compiling
`"]"` fails with `UnmatchedBracket` carrying exactly the position the
lexer attached to the loop-end token; neither compilation yields an
instruction sequence. -/
theorem claim6_unmatched_brackets :
    Optimizer.optimize (tokenize "[".data Position.default) =
      .error (.UnmatchedBracket ⟨1, 1⟩)
    ∧ Optimizer.optimize (tokenize "]".data Position.default) =
      .error (.UnmatchedBracket ⟨1, 2⟩)
    ∧ tokenize "]".data Position.default = [⟨.LoopEnd, ⟨1, 2⟩⟩] := by
  decide

/-- C10: the interpreter itself never validates its configured memory
size. With `memory_size = 0` construction yields an empty tape, and every
instruction that touches the current cell — increment, decrement, output,
input (once a byte has been read), and both jumps — performs an unguarded
tape index, which is an out-of-bounds panic (`Fault.indexOutOfBounds`)
rather than a returned `MemoryOutOfBounds` error; only the CLI in
`main.rs` rejects a zero memory size. -/
theorem claim10_zero_memory_unchecked :
    (Interpreter.new [.Increment 1] ⟨0, false, true⟩ []).memory = []
    ∧ cliRejectsMemorySize 0 = true
    ∧ (execute_instruction (Interpreter.new [.Increment 1] ⟨0, false, true⟩ [])).2 =
        some .indexOutOfBounds
    ∧ (execute_instruction (Interpreter.new [.Decrement 1] ⟨0, false, true⟩ [])).2 =
        some .indexOutOfBounds
    ∧ (execute_instruction (Interpreter.new [.Output 1] ⟨0, false, true⟩ [])).2 =
        some .indexOutOfBounds
    ∧ (execute_instruction (Interpreter.new [.Input 1] ⟨0, false, true⟩ [0])).2 =
        some .indexOutOfBounds
    ∧ (execute_instruction (Interpreter.new [.JumpForward 0] ⟨0, false, true⟩ [])).2 =
        some .indexOutOfBounds
    ∧ (execute_instruction (Interpreter.new [.JumpBackward 0] ⟨0, false, true⟩ [])).2 =
        some .indexOutOfBounds
    ∧ ∀ a : Nat, Fault.indexOutOfBounds ≠ .err (.MemoryOutOfBounds a) := by
  refine ⟨by decide, by decide, by decide, by decide, by decide, by decide, by decide,
    by decide, fun a h => Fault.noConfusion h⟩


/-- When the input loop of an `Input` instruction stops with a fault, the
instruction pointer, program, and cell pointer are unchanged, the tape
keeps its length, and only the current cell can have been overwritten. -/
theorem runInputLoop_fault_state (n : Nat) :
    ∀ s s2 : Interpreter, ∀ f : Fault, runInputLoop n s = (s2, some f) →
      s2.instruction_pointer = s.instruction_pointer
      ∧ s2.instructions = s.instructions
      ∧ s2.pointer = s.pointer
      ∧ s2.memory.length = s.memory.length
      ∧ ∀ i, i ≠ s.pointer → s2.memory.get? i = s.memory.get? i := by
  induction n with
  | zero => intro s s2 f h; simp [runInputLoop] at h
  | succ n ih =>
    intro s s2 f h
    unfold runInputLoop at h
    cases hin : s.input with
    | nil =>
      rw [hin] at h
      simp only [] at h
      obtain ⟨rfl, -⟩ := Prod.mk.injEq .. ▸ h
      exact ⟨rfl, rfl, rfl, rfl, fun i _ => rfl⟩
    | cons b rest =>
      rw [hin] at h
      simp only [] at h
      by_cases hp : s.pointer < s.memory.length
      · rw [if_pos hp] at h
        obtain ⟨h1, h2, h3, h4, h5⟩ := ih _ _ _ h
        refine ⟨h1, h2, h3, ?_, ?_⟩
        · rw [h4]; simp
        · intro i hi
          rw [h5 i hi]
          exact List.get?_set_ne b _ (Ne.symm hi)
      · rw [if_neg hp] at h
        obtain ⟨rfl, -⟩ := Prod.mk.injEq .. ▸ h
        exact ⟨rfl, rfl, rfl, rfl, fun i _ => rfl⟩

/-- When the input loop of an `Input` instruction stops with a returned
I/O error and the pointer is inside the tape, the stream held fewer bytes
than requested, the whole stream has been consumed, and the current cell
has been overwritten with the last byte read (it is untouched when the
stream was already empty). -/
theorem runInputLoop_err_consumed (n : Nat) : ∀ (s s2 : Interpreter) (e : BrainfuckError),
    s.pointer < s.memory.length →
    runInputLoop n s = (s2, some (.err e)) →
    s.input.length < n ∧ s2.input = [] ∧
    s2.memory = (match s.input.getLast? with
      | some b => s.memory.set s.pointer b
      | none => s.memory) := by
  induction n with
  | zero => intro s s2 e hp h; simp [runInputLoop] at h
  | succ n ih =>
    intro s s2 e hp h
    unfold runInputLoop at h
    cases hin : s.input with
    | nil =>
      rw [hin] at h
      simp only [] at h
      obtain ⟨rfl, -⟩ := Prod.mk.injEq .. ▸ h
      refine ⟨by simp, ?_, ?_⟩
      · exact hin
      · rfl
    | cons b rest =>
      rw [hin] at h
      simp only [] at h
      rw [if_pos hp] at h
      obtain ⟨h1, h2, h3⟩ := ih _ s2 e (by dsimp only; simpa using hp) h
      dsimp only at h1 h3
      refine ⟨by simp only [List.length_cons]; omega, h2, ?_⟩
      cases rest with
      | nil =>
        simp only [List.getLast?_singleton]
        simpa using h3
      | cons c cs =>
        rw [List.getLast?_cons_cons]
        cases hg : (c :: cs).getLast? with
        | none => rw [List.getLast?_eq_none_iff] at hg; cases hg
        | some b2 =>
          rw [hg] at h3
          simp only [] at h3
          rw [h3, List.set_set]

/-- C5 as amended: when an instruction fails with a returned fatal error,
the instruction pointer and the program are untouched; a failing move-left
leaves the state entirely unchanged; a failing move-right leaves the tape
unchanged but leaves the cell pointer at the attempted (wrapped) address;
and a failing input leaves the cell pointer and the other cells unchanged
while (with the pointer in bounds) it has consumed the whole input stream,
which held fewer bytes than requested, and overwritten the current cell
with the last byte read — untouched when no byte was available. -/
theorem claim5_error_state (s s2 : Interpreter) (e : BrainfuckError)
    (h : execute_instruction s = (s2, some (.err e))) :
    s2.instruction_pointer = s.instruction_pointer
    ∧ s2.instructions = s.instructions
    ∧ (∀ n, s.instructions.get? s.instruction_pointer = some (.MoveLeft n) → s2 = s)
    ∧ (∀ n, s.instructions.get? s.instruction_pointer = some (.MoveRight n) →
        s2.memory = s.memory ∧ s2.pointer = usizeWrapAdd s.pointer n)
    ∧ (∀ n, s.instructions.get? s.instruction_pointer = some (.Input n) →
        s2.pointer = s.pointer ∧ s2.memory.length = s.memory.length
        ∧ (∀ i, i ≠ s.pointer → s2.memory.get? i = s.memory.get? i)
        ∧ (s.pointer < s.memory.length →
            s.input.length < n ∧ s2.input = [] ∧
            s2.memory = (match s.input.getLast? with
              | some b => s.memory.set s.pointer b
              | none => s.memory))) := by
  unfold execute_instruction at h
  cases hget : s.instructions.get? s.instruction_pointer with
  | none => rw [hget] at h; simp at h
  | some inst =>
    rw [hget] at h
    cases inst with
    | MoveRight count =>
      simp only [] at h
      by_cases hb : usizeWrapAdd s.pointer count ≥ s.memory.length
      · rw [if_pos hb] at h
        obtain ⟨rfl, -⟩ := Prod.mk.injEq .. ▸ h
        refine ⟨rfl, rfl, fun n hn => by simp at hn, fun n hn => ?_, fun n hn => by simp at hn⟩
        simp only [Option.some.injEq, Instruction.MoveRight.injEq] at hn
        subst hn
        exact ⟨rfl, rfl⟩
      · rw [if_neg hb] at h; simp at h
    | MoveLeft count =>
      simp only [] at h
      by_cases hb : s.pointer < count
      · rw [if_pos hb] at h
        obtain ⟨rfl, -⟩ := Prod.mk.injEq .. ▸ h
        exact ⟨rfl, rfl, fun n hn => rfl, fun n hn => by simp at hn, fun n hn => by simp at hn⟩
      · rw [if_neg hb] at h; simp at h
    | Increment count =>
      simp only [] at h
      by_cases hb : s.pointer < s.memory.length
      · rw [if_pos hb] at h; simp at h
      · rw [if_neg hb] at h; simp at h
    | Decrement count =>
      simp only [] at h
      by_cases hb : s.pointer < s.memory.length
      · rw [if_pos hb] at h; simp at h
      · rw [if_neg hb] at h; simp at h
    | Output count =>
      simp only [] at h
      by_cases hz : count = 0
      · rw [if_pos hz] at h; simp at h
      · rw [if_neg hz] at h
        by_cases hb : s.pointer < s.memory.length
        · rw [if_pos hb] at h; simp at h
        · rw [if_neg hb] at h; simp at h
    | Input count =>
      simp only [] at h
      obtain ⟨h1, h2, h3, h4, h5⟩ := runInputLoop_fault_state count s s2 _ h
      refine ⟨h1, h2, fun n hn => by simp at hn, fun n hn => by simp at hn,
        fun n hn => ⟨h3, h4, h5, fun hp => ?_⟩⟩
      simp only [Option.some.injEq, Instruction.Input.injEq] at hn
      subst hn
      exact runInputLoop_err_consumed count s s2 e hp h
    | JumpForward target =>
      simp only [] at h
      by_cases hb : s.pointer < s.memory.length
      · rw [if_pos hb] at h
        by_cases hz : s.memory.getD s.pointer 0 = 0
        · rw [if_pos hz] at h; simp at h
        · rw [if_neg hz] at h; simp at h
      · rw [if_neg hb] at h; simp at h
    | JumpBackward target =>
      simp only [] at h
      by_cases hb : s.pointer < s.memory.length
      · rw [if_pos hb] at h
        by_cases hz : s.memory.getD s.pointer 0 = 0
        · rw [if_pos hz] at h; simp at h
        · rw [if_neg hz] at h; simp at h
      · rw [if_neg hb] at h; simp at h

/-- Witness for C5's amended statement: a failing `<` from the initial
state of a one-cell tape leaves the interpreter state unchanged, and a
failing `,,` with a single byte 65 available leaves that byte in the
current cell. -/
theorem claim5_error_state_witness :
    (execute_instruction (Interpreter.new [.MoveLeft 1] ⟨1, false, true⟩ [])).1 =
      Interpreter.new [.MoveLeft 1] ⟨1, false, true⟩ []
    ∧ (execute_instruction (Interpreter.new [.Input 2] ⟨1, false, true⟩ [65])).1.memory =
        [65] :=
  ⟨(claim5_error_state (Interpreter.new [.MoveLeft 1] ⟨1, false, true⟩ [])
      ((execute_instruction (Interpreter.new [.MoveLeft 1] ⟨1, false, true⟩ [])).1)
      (.MemoryOutOfBounds (USIZE - 1)) (by decide)).2.2.1 1 (by decide),
   (((claim5_error_state (Interpreter.new [.Input 2] ⟨1, false, true⟩ [65])
      ((execute_instruction (Interpreter.new [.Input 2] ⟨1, false, true⟩ [65])).1)
      (.IoError "Failed to read from stdin") (by decide)).2.2.2.2 2
        (by decide)).2.2.2 (by decide)).2.2⟩

/-- C5 counterexample: the claim that a failing instruction makes no
partial modification to the cell pointer or the tape is false. Compiling
`">"` and executing it on a one-cell tape fails with `MemoryOutOfBounds`
after the move-right has already moved the cell pointer to 1; and
compiling `",,"` and executing it with one byte 65 on stdin fails with an
`IoError` after the input instruction has already overwritten cell 0 with
65. -/
theorem claim5_counterexample :
    Optimizer.optimize (tokenize ">".data Position.default) = .ok [.MoveRight 1]
    ∧ (execute_instruction (Interpreter.new [.MoveRight 1] ⟨1, false, true⟩ [])).2 =
        some (.err (.MemoryOutOfBounds 1))
    ∧ (Interpreter.new [.MoveRight 1] ⟨1, false, true⟩ []).pointer = 0
    ∧ (execute_instruction (Interpreter.new [.MoveRight 1] ⟨1, false, true⟩ [])).1.pointer = 1
    ∧ Optimizer.optimize (tokenize ",,".data Position.default) = .ok [.Input 2]
    ∧ (Interpreter.new [.Input 2] ⟨1, false, true⟩ [65]).memory = [0]
    ∧ (execute_instruction (Interpreter.new [.Input 2] ⟨1, false, true⟩ [65])).2 =
        some (.err (.IoError "Failed to read from stdin"))
    ∧ (execute_instruction (Interpreter.new [.Input 2] ⟨1, false, true⟩ [65])).1.memory = [65]
    ∧ ([65] : List Nat) ≠ [0] := by
  refine ⟨by decide, by decide, by decide, by decide, by decide, by decide, by decide,
    by decide, by decide⟩

/-- C7: pointer motion is bounds-checked. Move-right wraps the pointer,
errors with `MemoryOutOfBounds` at the attempted address exactly when the
result reaches the tape length, and otherwise advances the instruction
pointer; move-left errors exactly when the pointer is smaller than the
count, reporting the wrapping-subtraction address, and otherwise moves
the pointer and advances. In particular `"<"` compiled and executed from
the initial state fails reporting the underflowed address `2^64 - 1`. -/
theorem claim7_move_bounds (s : Interpreter) (count : Nat) :
    (s.instructions.get? s.instruction_pointer = some (.MoveRight count) →
      if usizeWrapAdd s.pointer count ≥ s.memory.length then
        execute_instruction s =
          ({ s with pointer := usizeWrapAdd s.pointer count },
            some (.err (.MemoryOutOfBounds (usizeWrapAdd s.pointer count))))
      else
        execute_instruction s =
          ({ s with pointer := usizeWrapAdd s.pointer count,
                    instruction_pointer := s.instruction_pointer + 1 }, none))
    ∧ (s.instructions.get? s.instruction_pointer = some (.MoveLeft count) →
      if s.pointer < count then
        execute_instruction s =
          (s, some (.err (.MemoryOutOfBounds (usizeWrapSub s.pointer count))))
      else
        execute_instruction s =
          ({ s with pointer := s.pointer - count,
                    instruction_pointer := s.instruction_pointer + 1 }, none))
    ∧ Optimizer.optimize (tokenize "<".data Position.default) = .ok [.MoveLeft 1]
    ∧ execute_instruction (Interpreter.new [.MoveLeft 1] InterpreterConfig.default []) =
        (Interpreter.new [.MoveLeft 1] InterpreterConfig.default [],
          some (.err (.MemoryOutOfBounds (USIZE - 1)))) := by
  refine ⟨fun h => ?_, fun h => ?_, by decide, rfl⟩
  · split
    next hc =>
      unfold execute_instruction
      rw [h]
      simp only []
      rw [if_pos hc]
    next hc =>
      unfold execute_instruction
      rw [h]
      simp only []
      rw [if_neg hc]
  · split
    next hc =>
      unfold execute_instruction
      rw [h]
      simp only []
      rw [if_pos hc]
    next hc =>
      unfold execute_instruction
      rw [h]
      simp only []
      rw [if_neg hc]

/-- Witness for C7 at concrete states: a move-right that stays in bounds
and a move-left that underflows from pointer 0. -/
theorem claim7_move_bounds_witness :
    execute_instruction (Interpreter.new [.MoveRight 2] ⟨4, false, true⟩ []) =
      ({ Interpreter.new [.MoveRight 2] ⟨4, false, true⟩ [] with
          pointer := 2, instruction_pointer := 1 }, none)
    ∧ execute_instruction (Interpreter.new [.MoveLeft 3] ⟨4, false, true⟩ []) =
        (Interpreter.new [.MoveLeft 3] ⟨4, false, true⟩ [],
          some (.err (.MemoryOutOfBounds (usizeWrapSub 0 3)))) := by
  constructor
  · have h2 := (claim7_move_bounds (Interpreter.new [.MoveRight 2] ⟨4, false, true⟩ []) 2).1 (by decide)
    rw [if_neg (by decide)] at h2
    exact h2
  · have h2 := (claim7_move_bounds (Interpreter.new [.MoveLeft 3] ⟨4, false, true⟩ []) 3).2.1 (by decide)
    rw [if_pos (by decide)] at h2
    exact h2

/-- The six token kinds subject to run-length merging (everything except the brackets). -/
def mergeableKind : TokenKind → Bool
  | .LoopStart => false
  | .LoopEnd => false
  | _ => true

/-- The single instruction that a run of `n` identical operators of a
mergeable kind compiles to: count `n`, taken mod 256 for the arithmetic
kinds whose counts are stored in a `u8`. -/
def mergedInstruction : TokenKind → Nat → Instruction
  | .MoveRight, n => .MoveRight n
  | .MoveLeft, n => .MoveLeft n
  | .Increment, n => .Increment (n % 256)
  | .Decrement, n => .Decrement (n % 256)
  | .Output, n => .Output n
  | .Input, n => .Input n
  | .LoopStart, _ => .JumpForward 0
  | .LoopEnd, _ => .JumpBackward 0

/-- Processing a mergeable token from the empty compiler state emits one
instruction of count 1. -/
theorem process_token_first (k : TokenKind) (hk : mergeableKind k = true) (t : Token)
    (ht : t.kind = k) :
    Optimizer.process_token Optimizer.new t = .ok ⟨[mergedInstruction k 1], []⟩ := by
  cases k <;> simp_all [mergeableKind] <;>
    simp [Optimizer.process_token, ht, Optimizer.optimize_move, Optimizer.optimize_arithmetic,
      Optimizer.optimize_io, Optimizer.new, mergedInstruction]

/-- Processing a mergeable token whose kind matches the single existing
instruction bumps that instruction's count by one (wrapping for the
arithmetic kinds). -/
theorem process_token_merge (k : TokenKind) (hk : mergeableKind k = true) (t : Token)
    (ht : t.kind = k) (j : Nat) :
    Optimizer.process_token ⟨[mergedInstruction k j], []⟩ t =
      .ok ⟨[mergedInstruction k (j + 1)], []⟩ := by
  cases k <;> simp_all [mergeableKind] <;>
    simp [Optimizer.process_token, ht, Optimizer.optimize_move, Optimizer.optimize_arithmetic,
      Optimizer.optimize_io, mergedInstruction]

/-- Consuming a whole run of same-kind mergeable tokens keeps a single
instruction whose count grows by the run's length. -/
theorem optimizeLoop_same_kind (k : TokenKind) (hk : mergeableKind k = true) :
    ∀ (ts : List Token), (∀ t ∈ ts, t.kind = k) → ∀ j : Nat,
      Optimizer.optimizeLoop ⟨[mergedInstruction k j], []⟩ ts =
        .ok ⟨[mergedInstruction k (j + ts.length)], []⟩ := by
  intro ts
  induction ts with
  | nil => intro _ j; simp [Optimizer.optimizeLoop]
  | cons t ts ih =>
    intro hts j
    have h1 := process_token_merge k hk t (hts t (by simp)) j
    calc Optimizer.optimizeLoop ⟨[mergedInstruction k j], []⟩ (t :: ts)
        = Optimizer.optimizeLoop ⟨[mergedInstruction k (j + 1)], []⟩ ts := by
          simp [Optimizer.optimizeLoop, h1]
      _ = .ok ⟨[mergedInstruction k (j + 1 + ts.length)], []⟩ :=
          ih (fun u hu => hts u (by simp [hu])) (j + 1)
      _ = .ok ⟨[mergedInstruction k (j + (ts.length + 1))], []⟩ := by
          rw [Nat.add_assoc, Nat.add_comm 1]

/-- Tokenizing `n` copies of an operator character yields `n` tokens of
its kind. -/
theorem tokenize_replicate_kinds (c : Char) (k : TokenKind)
    (h : TokenKind.from_char c = some k) :
    ∀ (n : Nat) (pos : Position),
      (tokenize (List.replicate n c) pos).length = n
      ∧ ∀ t ∈ tokenize (List.replicate n c) pos, t.kind = k := by
  intro n
  induction n with
  | zero => intro pos; simp [tokenize]
  | succ n ih =>
    intro pos
    rw [List.replicate_succ]
    unfold tokenize
    rw [h]
    refine ⟨by simp [(ih _).1], ?_⟩
    intro t ht
    rcases List.mem_cons.mp ht with h1 | h1
    · rw [h1]
    · exact (ih _).2 t h1

/-- `from_char` inverts `to_char`. -/
theorem from_char_to_char (k : TokenKind) : TokenKind.from_char k.to_char = some k := by
  cases k <;> decide

/-- A run of `n` identical mergeable operators compiles to exactly one
instruction with count `n` (mod 256 for the arithmetic kinds). -/
theorem optimize_replicate_merge (k : TokenKind) (n : Nat) (hk : mergeableKind k = true) (hn : 1 ≤ n) :
    Optimizer.optimize (tokenize (List.replicate n k.to_char) Position.default) =
      .ok [mergedInstruction k n] := by
  obtain ⟨n', rfl⟩ : ∃ n', n = n' + 1 := ⟨n - 1, by omega⟩
  rw [List.replicate_succ]
  unfold tokenize
  rw [from_char_to_char]
  unfold Optimizer.optimize
  have hrest := tokenize_replicate_kinds k.to_char k (from_char_to_char k) n'
    (update_position Position.default k.to_char)
  have h0 : Optimizer.process_token Optimizer.new
      ⟨k, update_position Position.default k.to_char⟩ = .ok ⟨[mergedInstruction k 1], []⟩ :=
    process_token_first k hk _ rfl
  rw [show Optimizer.optimizeLoop Optimizer.new
      (⟨k, update_position Position.default k.to_char⟩ ::
        tokenize (List.replicate n' k.to_char) (update_position Position.default k.to_char)) =
      Optimizer.optimizeLoop ⟨[mergedInstruction k 1], []⟩
        (tokenize (List.replicate n' k.to_char) (update_position Position.default k.to_char))
    from by simp [Optimizer.optimizeLoop, h0]]
  rw [optimizeLoop_same_kind k hk _ hrest.2 1]
  simp only [hrest.1]
  rw [Nat.add_comm]
  rfl

/-- The merge table of the compiler: which preceding instruction absorbs a
token of which kind — exactly the six same-directional pairs. -/
def mergesWith : Instruction → TokenKind → Bool
  | .MoveRight _, .MoveRight => true
  | .MoveLeft _, .MoveLeft => true
  | .Increment _, .Increment => true
  | .Decrement _, .Decrement => true
  | .Output _, .Output => true
  | .Input _, .Input => true
  | _, _ => false

/-- A mergeable token whose kind the trailing instruction does not absorb
(including when there is no instruction at all) starts a fresh instruction
of count 1 and leaves everything else unchanged. -/
theorem process_token_no_merge (k : TokenKind) (hk : mergeableKind k = true)
    (st : Optimizer) (t : Token) (ht : t.kind = k)
    (hnm : ∀ x, st.instructions.getLast? = some x → mergesWith x k = false) :
    st.process_token t =
      .ok ⟨st.instructions ++ [mergedInstruction k 1], st.jump_stack⟩ := by
  cases k with
  | LoopStart => simp [mergeableKind] at hk
  | LoopEnd => simp [mergeableKind] at hk
  | MoveRight =>
    cases hlast : st.instructions.getLast? with
    | none =>
      simp [Optimizer.process_token, ht, Optimizer.optimize_move, hlast, mergedInstruction]
    | some x =>
      have hx := hnm x hlast
      cases x <;> simp [mergesWith] at hx <;>
        simp [Optimizer.process_token, ht, Optimizer.optimize_move, hlast, mergedInstruction]
  | MoveLeft =>
    cases hlast : st.instructions.getLast? with
    | none =>
      simp [Optimizer.process_token, ht, Optimizer.optimize_move, hlast, mergedInstruction]
    | some x =>
      have hx := hnm x hlast
      cases x <;> simp [mergesWith] at hx <;>
        simp [Optimizer.process_token, ht, Optimizer.optimize_move, hlast, mergedInstruction]
  | Increment =>
    cases hlast : st.instructions.getLast? with
    | none =>
      simp [Optimizer.process_token, ht, Optimizer.optimize_arithmetic, hlast, mergedInstruction]
    | some x =>
      have hx := hnm x hlast
      cases x <;> simp [mergesWith] at hx <;>
        simp [Optimizer.process_token, ht, Optimizer.optimize_arithmetic, hlast, mergedInstruction]
  | Decrement =>
    cases hlast : st.instructions.getLast? with
    | none =>
      simp [Optimizer.process_token, ht, Optimizer.optimize_arithmetic, hlast, mergedInstruction]
    | some x =>
      have hx := hnm x hlast
      cases x <;> simp [mergesWith] at hx <;>
        simp [Optimizer.process_token, ht, Optimizer.optimize_arithmetic, hlast, mergedInstruction]
  | Output =>
    cases hlast : st.instructions.getLast? with
    | none =>
      simp [Optimizer.process_token, ht, Optimizer.optimize_io, hlast, mergedInstruction]
    | some x =>
      have hx := hnm x hlast
      cases x <;> simp [mergesWith] at hx <;>
        simp [Optimizer.process_token, ht, Optimizer.optimize_io, hlast, mergedInstruction]
  | Input =>
    cases hlast : st.instructions.getLast? with
    | none =>
      simp [Optimizer.process_token, ht, Optimizer.optimize_io, hlast, mergedInstruction]
    | some x =>
      have hx := hnm x hlast
      cases x <;> simp [mergesWith] at hx <;>
        simp [Optimizer.process_token, ht, Optimizer.optimize_io, hlast, mergedInstruction]

/-- C4: an input of `n >= 1` identical operator characters from
`{> < + - . ,}` compiles to exactly one instruction of count `n`
(`n mod 256` for `+`/`-`); and a token never merges with a preceding
instruction of a different kind — whenever the trailing instruction does
not absorb the token's kind (per `mergesWith`), processing the token
appends a fresh count-1 instruction instead of merging. -/
theorem claim4_run_length_merge (k : TokenKind) (n : Nat)
    (hk : mergeableKind k = true) (hn : 1 ≤ n) :
    Optimizer.optimize (tokenize (List.replicate n k.to_char) Position.default) =
      .ok [mergedInstruction k n]
    ∧ (∀ (st : Optimizer) (t : Token), t.kind = k →
        (∀ x, st.instructions.getLast? = some x → mergesWith x k = false) →
        st.process_token t =
          .ok ⟨st.instructions ++ [mergedInstruction k 1], st.jump_stack⟩) :=
  ⟨optimize_replicate_merge k n hk hn,
   fun st t ht hnm => process_token_no_merge k hk st t ht hnm⟩

/-- Witness for C4: 300 plus signs compile to a single `Increment 44`
(300 mod 256); an increment token after a `Decrement 7` instruction and a
move-right token after a `MoveLeft 5` instruction each start a fresh
count-1 instruction instead of merging. -/
theorem claim4_run_length_merge_witness :
    Optimizer.optimize (tokenize (List.replicate 300 '+') Position.default) =
      .ok [.Increment 44]
    ∧ Optimizer.process_token ⟨[.Decrement 7], [0]⟩ ⟨.Increment, ⟨1, 1⟩⟩ =
        .ok ⟨[.Decrement 7, .Increment 1], [0]⟩
    ∧ Optimizer.process_token ⟨[.MoveLeft 5], []⟩ ⟨.MoveRight, ⟨1, 1⟩⟩ =
        .ok ⟨[.MoveLeft 5, .MoveRight 1], []⟩ :=
  ⟨(claim4_run_length_merge .Increment 300 (by decide) (by decide)).1,
   (claim4_run_length_merge .Increment 300 (by decide) (by decide)).2
     ⟨[.Decrement 7], [0]⟩ ⟨.Increment, ⟨1, 1⟩⟩ rfl
     (fun x hx => by cases hx; rfl),
   (claim4_run_length_merge .MoveRight 3 (by decide) (by decide)).2
     ⟨[.MoveLeft 5], []⟩ ⟨.MoveRight, ⟨1, 1⟩⟩ rfl
     (fun x hx => by cases hx; rfl)⟩

/-- Whether an instruction is a forward jump. -/
def isJumpForward : Instruction → Bool
  | .JumpForward _ => true
  | _ => false

/-- Whether an instruction is a backward jump. -/
def isJumpBackward : Instruction → Bool
  | .JumpBackward _ => true
  | _ => false

/-- Reference bracket matcher over a compiled instruction sequence: a
single left-to-right scan that pushes the index of every forward jump and,
at every backward jump, pops the most recent open forward jump to form a
matched pair. `i` is the index of the head of the remaining list. -/
def scanAux : List Instruction → Nat → List Nat → List (Nat × Nat) →
    Option (List Nat × List (Nat × Nat))
  | [], _, stk, ps => some (stk, ps)
  | x :: rest, i, stk, ps =>
    if isJumpForward x then scanAux rest (i + 1) (i :: stk) ps
    else if isJumpBackward x then
      match stk with
      | [] => none
      | s :: stk2 => scanAux rest (i + 1) stk2 ((s, i) :: ps)
    else scanAux rest (i + 1) stk ps

/-- The matched (forward, backward) index pairs of an instruction
sequence, defined by the canonical stack scan; `none` when the jumps are
not properly matched. -/
def matchingPairs (l : List Instruction) : Option (List (Nat × Nat)) :=
  match scanAux l 0 [] [] with
  | some ([], ps) => some ps
  | _ => none

/-- The scan of a concatenation runs the scan of the first part and
continues through the second. -/
theorem scanAux_append (l l2 : List Instruction) : ∀ (i : Nat) (stk : List Nat) (ps : List (Nat × Nat)),
    scanAux (l ++ l2) i stk ps =
      match scanAux l i stk ps with
      | some (stk2, ps2) => scanAux l2 (i + l.length) stk2 ps2
      | none => none := by
  induction l with
  | nil => intro i stk ps; simp [scanAux]
  | cons x rest ih =>
    intro i stk ps
    by_cases hf : isJumpForward x
    · simp only [List.cons_append, scanAux, if_pos hf, List.append_eq]
      rw [ih]
      cases scanAux rest (i + 1) (i :: stk) ps with
      | none => rfl
      | some v =>
        obtain ⟨stk2, ps2⟩ := v
        simp only []
        congr 1
        simp
        omega
    · by_cases hb : isJumpBackward x
      · simp only [List.cons_append, scanAux, if_neg hf, if_pos hb, List.append_eq]
        cases stk with
        | nil => rfl
        | cons s stk2 =>
          simp only []
          rw [ih]
          cases scanAux rest (i + 1) stk2 ((s, i) :: ps) with
          | none => rfl
          | some v =>
            obtain ⟨stk3, ps3⟩ := v
            simp only []
            congr 1
            simp
            omega
      · simp only [List.cons_append, scanAux, if_neg hf, if_neg hb, List.append_eq]
        rw [ih]
        cases scanAux rest (i + 1) stk ps with
        | none => rfl
        | some v =>
          obtain ⟨stk2, ps2⟩ := v
          simp only []
          congr 1
          simp
          omega

/-- Retargeting a forward jump does not change the scan: the scan looks
only at instruction kinds, never at jump targets. -/
theorem scanAux_set_jumpForward (t2 : Nat) :
    ∀ (l : List Instruction) (nn : Nat) (t : Nat), l.get? nn = some (.JumpForward t) →
      ∀ (i : Nat) (stk : List Nat) (ps : List (Nat × Nat)),
        scanAux (l.set nn (.JumpForward t2)) i stk ps = scanAux l i stk ps := by
  intro l
  induction l with
  | nil => intro nn t h; simp at h
  | cons x rest ih =>
    intro nn t h i stk ps
    cases nn with
    | zero =>
      simp only [List.get?] at h
      injection h with h
      subst h
      simp [scanAux, isJumpForward]
    | succ nn =>
      simp only [List.get?] at h
      simp only [List.set]
      by_cases hf : isJumpForward x
      · simp only [scanAux, if_pos hf]
        exact ih nn t h (i + 1) (i :: stk) ps
      · by_cases hb : isJumpBackward x
        · simp only [scanAux, if_neg hf, if_pos hb]
          cases stk with
          | nil => rfl
          | cons s stk2 => exact ih nn t h (i + 1) stk2 ((s, i) :: ps)
        · simp only [scanAux, if_neg hf, if_neg hb]
          exact ih nn t h (i + 1) stk ps

/-- Every recorded pair (a, b) is ordered, in bounds, and links a forward
jump at `a` targeting `b` with a backward jump at `b` targeting `a`. -/
def PairsOk (l : List Instruction) (ps : List (Nat × Nat)) : Prop :=
  ∀ p ∈ ps, p.1 < p.2 ∧ p.2 < l.length
    ∧ l.get? p.1 = some (.JumpForward p.2) ∧ l.get? p.2 = some (.JumpBackward p.1)

/-- Every index still on the loop stack holds a placeholder forward jump. -/
def StackOk (l : List Instruction) (stk : List Nat) : Prop :=
  ∀ i ∈ stk, i < l.length ∧ l.get? i = some (.JumpForward 0)

/-- Invariant of the compiler state: the reference scan of the emitted
instructions reproduces the compiler's own loop stack together with a set
of closed pairs satisfying `PairsOk`, the stack holds placeholders, and
stack entries strictly decrease towards the bottom. -/
def OptInv (st : Optimizer) : Prop :=
  ∃ ps, scanAux st.instructions 0 [] [] = some (st.jump_stack, ps)
    ∧ PairsOk st.instructions ps
    ∧ StackOk st.instructions st.jump_stack
    ∧ st.jump_stack.Pairwise (· > ·)

/-- Appending a non-jump instruction preserves the invariant. -/
theorem OptInv_append_nonjump (st : Optimizer) (y : Instruction)
    (hyf : isJumpForward y = false) (hyb : isJumpBackward y = false) :
    OptInv st → OptInv ⟨st.instructions ++ [y], st.jump_stack⟩ := by
  rintro ⟨ps, hscan, hpairs, hstk, hpw⟩
  refine ⟨ps, ?_, ?_, ?_, hpw⟩
  · rw [scanAux_append, hscan]
    simp [scanAux, hyf, hyb]
  · intro p hp
    obtain ⟨h1, h2, h3, h4⟩ := hpairs p hp
    refine ⟨h1, by simp; omega, ?_, ?_⟩
    · rw [List.get?_append (by omega)]; exact h3
    · rw [List.get?_append h2]; exact h4
  · intro j hj
    obtain ⟨h1, h2⟩ := hstk j hj
    exact ⟨by simp; omega, by rw [List.get?_append h1]; exact h2⟩

/-- Replacing a non-jump instruction by another non-jump instruction does
not change the scan. -/
theorem scanAux_set_nonjump (y : Instruction)
    (hyf : isJumpForward y = false) (hyb : isJumpBackward y = false) :
    ∀ (l : List Instruction) (nn : Nat) (x : Instruction), l.get? nn = some x →
      isJumpForward x = false → isJumpBackward x = false →
      ∀ (i : Nat) (stk : List Nat) (ps : List (Nat × Nat)),
        scanAux (l.set nn y) i stk ps = scanAux l i stk ps := by
  intro l
  induction l with
  | nil => intro nn x h; simp at h
  | cons z rest ih =>
    intro nn x h hxf hxb i stk ps
    cases nn with
    | zero =>
      rw [List.get?_cons_zero] at h
      injection h with h
      subst h
      have c1 : ¬ (isJumpForward y = true) := by simp [hyf]
      have c2 : ¬ (isJumpBackward y = true) := by simp [hyb]
      have c3 : ¬ (isJumpForward z = true) := by simp [hxf]
      have c4 : ¬ (isJumpBackward z = true) := by simp [hxb]
      simp only [List.set, scanAux, if_neg c1, if_neg c2, if_neg c3, if_neg c4]
    | succ nn =>
      rw [List.get?_cons_succ] at h
      simp only [List.set]
      by_cases hf : isJumpForward z
      · simp only [scanAux, if_pos hf]
        exact ih nn x h hxf hxb (i + 1) (i :: stk) ps
      · by_cases hb : isJumpBackward z
        · simp only [scanAux, if_neg hf, if_pos hb]
          cases stk with
          | nil => rfl
          | cons s stk2 => exact ih nn x h hxf hxb (i + 1) stk2 ((s, i) :: ps)
        · simp only [scanAux, if_neg hf, if_neg hb]
          exact ih nn x h hxf hxb (i + 1) stk ps

/-- Overwriting a trailing non-jump instruction with a non-jump
instruction (a run-length merge) preserves the invariant. -/
theorem OptInv_set_last (st : Optimizer) (x y : Instruction)
    (hx : st.instructions.getLast? = some x)
    (hxf : isJumpForward x = false) (hxb : isJumpBackward x = false)
    (hyf : isJumpForward y = false) (hyb : isJumpBackward y = false) :
    OptInv st → OptInv ⟨st.instructions.set (st.instructions.length - 1) y, st.jump_stack⟩ := by
  rintro ⟨ps, hscan, hpairs, hstk, hpw⟩
  have hget : st.instructions.get? (st.instructions.length - 1) = some x := by
    rw [← List.getLast?_eq_get?]; exact hx
  refine ⟨ps, ?_, ?_, ?_, hpw⟩
  · rw [scanAux_set_nonjump y hyf hyb st.instructions _ x hget hxf hxb]
    exact hscan
  · intro p hp
    obtain ⟨h1, h2, h3, h4⟩ := hpairs p hp
    have hp1 : p.1 ≠ st.instructions.length - 1 := by
      intro he; rw [← he] at hget; rw [h3] at hget
      injection hget with hget; rw [← hget] at hxf; simp [isJumpForward] at hxf
    have hp2 : p.2 ≠ st.instructions.length - 1 := by
      intro he; rw [← he] at hget; rw [h4] at hget
      injection hget with hget; rw [← hget] at hxb; simp [isJumpBackward] at hxb
    refine ⟨h1, by simp; omega, ?_, ?_⟩
    · rw [List.get?_set_ne _ _ (Ne.symm hp1)]; exact h3
    · rw [List.get?_set_ne _ _ (Ne.symm hp2)]; exact h4
  · intro j hj
    obtain ⟨h1, h2⟩ := hstk j hj
    have hj1 : j ≠ st.instructions.length - 1 := by
      intro he; rw [← he] at hget; rw [h2] at hget
      injection hget with hget; rw [← hget] at hxf; simp [isJumpForward] at hxf
    exact ⟨by simp; omega, by rw [List.get?_set_ne _ _ (Ne.symm hj1)]; exact h2⟩

/-- `optimize_move` preserves the invariant. -/
theorem OptInv_optimize_move (st : Optimizer) (count : Nat) (right : Bool)
    (h : OptInv st) : OptInv (st.optimize_move count right) := by
  unfold Optimizer.optimize_move
  split
  · next n heq => exact OptInv_set_last st _ _ heq rfl rfl rfl rfl h
  · next n heq => exact OptInv_set_last st _ _ heq rfl rfl rfl rfl h
  · next =>
    split
    · exact OptInv_append_nonjump st _ rfl rfl h
    · exact OptInv_append_nonjump st _ rfl rfl h

/-- `optimize_arithmetic` preserves the invariant. -/
theorem OptInv_optimize_arithmetic (st : Optimizer) (count : Nat) (increment : Bool)
    (h : OptInv st) : OptInv (st.optimize_arithmetic count increment) := by
  unfold Optimizer.optimize_arithmetic
  split
  · next n heq => exact OptInv_set_last st _ _ heq rfl rfl rfl rfl h
  · next n heq => exact OptInv_set_last st _ _ heq rfl rfl rfl rfl h
  · next =>
    split
    · exact OptInv_append_nonjump st _ rfl rfl h
    · exact OptInv_append_nonjump st _ rfl rfl h

/-- `optimize_io` preserves the invariant. -/
theorem OptInv_optimize_io (st : Optimizer) (count : Nat) (output : Bool)
    (h : OptInv st) : OptInv (st.optimize_io count output) := by
  unfold Optimizer.optimize_io
  split
  · next n heq => exact OptInv_set_last st _ _ heq rfl rfl rfl rfl h
  · next n heq => exact OptInv_set_last st _ _ heq rfl rfl rfl rfl h
  · next =>
    split
    · exact OptInv_append_nonjump st _ rfl rfl h
    · exact OptInv_append_nonjump st _ rfl rfl h

/-- `handle_loop_start` preserves the invariant. -/
theorem OptInv_loop_start (st : Optimizer) (h : OptInv st) :
    OptInv st.handle_loop_start := by
  obtain ⟨ps, hscan, hpairs, hstk, hpw⟩ := h
  refine ⟨ps, ?_, ?_, ?_, ?_⟩
  · unfold Optimizer.handle_loop_start
    simp only []
    rw [scanAux_append, hscan]
    simp [scanAux, isJumpForward]
  · intro p hp
    obtain ⟨h1, h2, h3, h4⟩ := hpairs p hp
    refine ⟨h1, by simp [Optimizer.handle_loop_start]; omega, ?_, ?_⟩
    · rw [Optimizer.handle_loop_start]
      simp only []
      rw [List.get?_append (by omega)]; exact h3
    · rw [Optimizer.handle_loop_start]
      simp only []
      rw [List.get?_append h2]; exact h4
  · intro j hj
    rw [Optimizer.handle_loop_start] at hj
    simp only [] at hj
    rcases List.mem_cons.mp hj with h1 | h1
    · subst h1
      constructor
      · simp [Optimizer.handle_loop_start]
      · rw [Optimizer.handle_loop_start]
        simp only []
        exact List.get?_concat_length _ _
    · obtain ⟨ha, hb⟩ := hstk j h1
      constructor
      · simp [Optimizer.handle_loop_start]; omega
      · rw [Optimizer.handle_loop_start]
        simp only []
        rw [List.get?_append ha]; exact hb
  · rw [Optimizer.handle_loop_start]
    simp only []
    rw [List.pairwise_cons]
    exact ⟨fun j hj => (hstk j hj).1, hpw⟩

/-- A successful `handle_loop_end` preserves the invariant: the popped
placeholder is patched to the index the backward jump is about to occupy
and the new pair joins the closed pairs. -/
theorem OptInv_loop_end (st st2 : Optimizer) (pos : Position)
    (h : st.handle_loop_end pos = .ok st2) (hI : OptInv st) : OptInv st2 := by
  obtain ⟨ps, hscan, hpairs, hstk, hpw⟩ := hI
  unfold Optimizer.handle_loop_end at h
  cases hjs : st.jump_stack with
  | nil => rw [hjs] at h; cases h
  | cons s rest =>
    rw [hjs] at h
    simp only [] at h
    obtain ⟨hs_lt, hs_get⟩ := hstk s (by rw [hjs]; exact List.mem_cons_self ..)
    rw [hs_get] at h
    simp only [] at h
    injection h with h
    subst h
    have hlen_set : (st.instructions.set s
        (Instruction.JumpForward st.instructions.length)).length = st.instructions.length := by
      simp
    refine ⟨(s, st.instructions.length) :: ps, ?_, ?_, ?_, ?_⟩
    · rw [scanAux_append]
      rw [scanAux_set_jumpForward st.instructions.length st.instructions s 0 hs_get]
      rw [hscan, hjs]
      simp [scanAux, isJumpForward, isJumpBackward, hlen_set]
    · intro p hp
      rcases List.mem_cons.mp hp with hp1 | hp1
      · subst hp1
        refine ⟨hs_lt, by simp, ?_, ?_⟩
        · rw [List.get?_append (by rw [hlen_set]; exact hs_lt)]
          rw [List.get?_set_eq_of_lt _ hs_lt]
        · show (st.instructions.set s (Instruction.JumpForward st.instructions.length) ++
              [Instruction.JumpBackward s]).get? st.instructions.length =
              some (Instruction.JumpBackward s)
          have hcl := List.get?_concat_length
            (st.instructions.set s (Instruction.JumpForward st.instructions.length))
            (Instruction.JumpBackward s)
          rw [hlen_set] at hcl
          exact hcl
      · obtain ⟨h1, h2, h3, h4⟩ := hpairs p hp1
        have hp_ne1 : p.1 ≠ s := by
          intro he
          rw [he, hs_get] at h3
          injection h3 with h3
          injection h3 with h3
          omega
        have hp_ne2 : p.2 ≠ s := by
          intro he
          rw [he, hs_get] at h4
          cases h4
        refine ⟨h1, by simp; omega, ?_, ?_⟩
        · rw [List.get?_append (by rw [hlen_set]; omega)]
          rw [List.get?_set_ne _ _ (Ne.symm hp_ne1)]
          exact h3
        · rw [List.get?_append (by rw [hlen_set]; omega)]
          rw [List.get?_set_ne _ _ (Ne.symm hp_ne2)]
          exact h4
    · intro j hj
      have hj_mem : j ∈ st.jump_stack := by rw [hjs]; exact List.mem_cons_of_mem _ hj
      obtain ⟨h1, h2⟩ := hstk j hj_mem
      have hj_ne : j ≠ s := by
        intro he
        rw [hjs] at hpw
        have := (List.pairwise_cons.mp hpw).1 j hj
        omega
      refine ⟨by simp; omega, ?_⟩
      rw [List.get?_append (by rw [hlen_set]; omega)]
      rw [List.get?_set_ne _ _ (Ne.symm hj_ne)]
      exact h2
    · rw [hjs] at hpw
      exact (List.pairwise_cons.mp hpw).2

/-- `process_token` preserves the invariant. -/
theorem OptInv_process_token (st st2 : Optimizer) (t : Token)
    (h : st.process_token t = .ok st2) (hI : OptInv st) : OptInv st2 := by
  unfold Optimizer.process_token at h
  cases t
  next kind pos =>
  cases kind
  all_goals simp only [] at h
  case MoveRight => injection h with h; subst h; exact OptInv_optimize_move st 1 true hI
  case MoveLeft => injection h with h; subst h; exact OptInv_optimize_move st 1 false hI
  case Increment => injection h with h; subst h; exact OptInv_optimize_arithmetic st 1 true hI
  case Decrement => injection h with h; subst h; exact OptInv_optimize_arithmetic st 1 false hI
  case Output => injection h with h; subst h; exact OptInv_optimize_io st 1 true hI
  case Input => injection h with h; subst h; exact OptInv_optimize_io st 1 false hI
  case LoopStart => injection h with h; subst h; exact OptInv_loop_start st hI
  case LoopEnd => exact OptInv_loop_end st st2 pos h hI

/-- The token loop preserves the invariant. -/
theorem OptInv_optimizeLoop : ∀ (ts : List Token) (st st2 : Optimizer),
    Optimizer.optimizeLoop st ts = .ok st2 → OptInv st → OptInv st2 := by
  intro ts
  induction ts with
  | nil =>
    intro st st2 h hI
    unfold Optimizer.optimizeLoop at h
    injection h with h
    subst h
    exact hI
  | cons t ts ih =>
    intro st st2 h hI
    unfold Optimizer.optimizeLoop at h
    cases hp : st.process_token t with
    | error e => rw [hp] at h; cases h
    | ok stm =>
      rw [hp] at h
      simp only [] at h
      exact ih stm st2 h (OptInv_process_token st stm t hp hI)

/-- The fresh compiler state satisfies the invariant. -/
theorem OptInv_new : OptInv Optimizer.new := by
  refine ⟨[], rfl, ?_, ?_, List.Pairwise.nil⟩
  · intro p hp; cases hp
  · intro j hj; cases hj

/-- Successful compilation yields an instruction list on which the
reference bracket scan succeeds with an empty final stack, and every
matched pair (s, b) has the forward jump at s targeting b — the index of
the matching backward jump — and the backward jump at b targeting s. -/
theorem optimize_matchingPairs (tokens : List Token) (instrs : List Instruction)
    (h : Optimizer.optimize tokens = .ok instrs) :
    ∃ ps, matchingPairs instrs = some ps ∧ PairsOk instrs ps := by
  unfold Optimizer.optimize at h
  cases hL : Optimizer.optimizeLoop Optimizer.new tokens with
  | error e => rw [hL] at h; cases h
  | ok st =>
    rw [hL] at h
    simp only [] at h
    by_cases he : st.jump_stack.isEmpty
    · rw [if_pos he] at h
      injection h with h
      subst h
      obtain ⟨ps, hscan, hpairs, -, -⟩ := OptInv_optimizeLoop tokens Optimizer.new st hL OptInv_new
      refine ⟨ps, ?_, hpairs⟩
      unfold matchingPairs
      rw [List.isEmpty_iff.mp he] at hscan
      rw [hscan]
    · rw [if_neg he] at h; cases h

/-- C1 counterexample: compiling `"[]"` produces `JumpForward 1` at index
0 and `JumpBackward 0` at index 1; the canonical matching pairs the two,
yet the forward jump's target is 1 — the index *of* its matching backward
jump — not 2, the index immediately after it, as the claim requires. -/
theorem claim1_counterexample :
    Optimizer.optimize (tokenize "[]".data Position.default) =
      .ok [.JumpForward 1, .JumpBackward 0]
    ∧ matchingPairs [.JumpForward 1, .JumpBackward 0] = some [(0, 1)]
    ∧ [Instruction.JumpForward 1, .JumpBackward 0].get? 0 ≠ some (.JumpForward (1 + 1)) := by
  refine ⟨by decide, by decide, by decide⟩

/-- C1 as amended: after successful compilation of any well-nested
bracket sequence, every forward jump's target equals the index *of* its
matching backward jump, and every backward jump's target equals the index
of its matching forward jump. -/
theorem claim1_jump_targets (tokens : List Token) (instrs : List Instruction)
    (h : Optimizer.optimize tokens = .ok instrs) :
    ∃ ps, matchingPairs instrs = some ps ∧
      ∀ p ∈ ps, p.1 < p.2
        ∧ instrs.get? p.1 = some (.JumpForward p.2)
        ∧ instrs.get? p.2 = some (.JumpBackward p.1) := by
  obtain ⟨ps, hm, hpairs⟩ := optimize_matchingPairs tokens instrs h
  exact ⟨ps, hm, fun p hp => ⟨(hpairs p hp).1, (hpairs p hp).2.2.1, (hpairs p hp).2.2.2⟩⟩

/-- Witness for C1's amended statement on the compiled form of `"[+]"`. -/
theorem claim1_jump_targets_witness :
    ∃ ps, matchingPairs [.JumpForward 2, .Increment 1, .JumpBackward 0] = some ps ∧
      ∀ p ∈ ps, p.1 < p.2
        ∧ [Instruction.JumpForward 2, .Increment 1, .JumpBackward 0].get? p.1 =
            some (.JumpForward p.2)
        ∧ [Instruction.JumpForward 2, .Increment 1, .JumpBackward 0].get? p.2 =
            some (.JumpBackward p.1) :=
  claim1_jump_targets (tokenize "[+]".data Position.default)
    [.JumpForward 2, .Increment 1, .JumpBackward 0] (by decide)

/-- No instruction is both a forward and a backward jump. -/
theorem fwd_bwd_exclusive (x : Instruction) :
    isJumpForward x = true → isJumpBackward x = true → False := by
  cases x <;> simp [isJumpForward, isJumpBackward]

/-- Coverage of the bracket scan: when it succeeds, every index fed in on
the stack and everyjump instruction of the scanned list ends up either on
the final stack or inside a final pair (backward jumps always pair). -/
theorem scanAux_coverage : ∀ (l : List Instruction) (i : Nat) (stk : List Nat)
    (ps : List (Nat × Nat)) (stk2 : List Nat) (ps2 : List (Nat × Nat)),
    scanAux l i stk ps = some (stk2, ps2) →
    (∀ s ∈ stk, s ∈ stk2 ∨ ∃ b, (s, b) ∈ ps2)
    ∧ (∀ p ∈ ps, p ∈ ps2)
    ∧ (∀ j x, l.get? j = some x → isJumpForward x = true →
        (i + j) ∈ stk2 ∨ ∃ b, (i + j, b) ∈ ps2)
    ∧ (∀ j x, l.get? j = some x → isJumpBackward x = true →
        ∃ a, (a, i + j) ∈ ps2) := by
  intro l
  induction l with
  | nil =>
    intro i stk ps stk2 ps2 h
    unfold scanAux at h
    injection h with h
    injection h with h1 h2
    subst h1; subst h2
    exact ⟨fun s hs => .inl hs, fun p hp => hp,
      fun j x hx => by simp at hx, fun j x hx => by simp at hx⟩
  | cons x rest ih =>
    intro i stk ps stk2 ps2 h
    by_cases hf : isJumpForward x
    · unfold scanAux at h
      rw [if_pos hf] at h
      obtain ⟨h1, h2, h3, h4⟩ := ih (i + 1) (i :: stk) ps stk2 ps2 h
      refine ⟨fun s hs => h1 s (List.mem_cons_of_mem _ hs), h2, ?_, ?_⟩
      · intro j y hy hfy
        cases j with
        | zero =>
          rw [Nat.add_zero]
          exact h1 i (List.mem_cons_self ..)
        | succ jj =>
          rw [List.get?_cons_succ] at hy
          have := h3 jj y hy hfy
          rw [show i + 1 + jj = i + (jj + 1) from by omega] at this
          exact this
      · intro j y hy hby
        cases j with
        | zero =>
          rw [List.get?_cons_zero] at hy
          injection hy with hy
          subst hy
          exact (fwd_bwd_exclusive x hf hby).elim
        | succ jj =>
          rw [List.get?_cons_succ] at hy
          have := h4 jj y hy hby
          rw [show i + 1 + jj = i + (jj + 1) from by omega] at this
          exact this
    · by_cases hb : isJumpBackward x
      · unfold scanAux at h
        rw [if_neg hf, if_pos hb] at h
        cases stk with
        | nil => cases h
        | cons s stk' =>
          simp only [] at h
          obtain ⟨h1, h2, h3, h4⟩ := ih (i + 1) stk' ((s, i) :: ps) stk2 ps2 h
          have hpair : (s, i) ∈ ps2 := h2 (s, i) (List.mem_cons_self ..)
          refine ⟨?_, fun p hp => h2 p (List.mem_cons_of_mem _ hp), ?_, ?_⟩
          · intro u hu
            rcases List.mem_cons.mp hu with rfl | hu2
            · exact .inr ⟨i, hpair⟩
            · exact h1 u hu2
          · intro j y hy hfy
            cases j with
            | zero =>
              rw [List.get?_cons_zero] at hy
              injection hy with hy
              subst hy
              rw [hfy] at hf
              simp at hf
            | succ jj =>
              rw [List.get?_cons_succ] at hy
              have := h3 jj y hy hfy
              rw [show i + 1 + jj = i + (jj + 1) from by omega] at this
              exact this
          · intro j y hy hby
            cases j with
            | zero => exact ⟨s, by rw [Nat.add_zero]; exact hpair⟩
            | succ jj =>
              rw [List.get?_cons_succ] at hy
              have := h4 jj y hy hby
              rw [show i + 1 + jj = i + (jj + 1) from by omega] at this
              exact this
      · unfold scanAux at h
        rw [if_neg hf, if_neg hb] at h
        obtain ⟨h1, h2, h3, h4⟩ := ih (i + 1) stk ps stk2 ps2 h
        refine ⟨h1, h2, ?_, ?_⟩
        · intro j y hy hfy
          cases j with
          | zero =>
            rw [List.get?_cons_zero] at hy
            injection hy with hy
            subst hy
            rw [hfy] at hf
            simp at hf
          | succ jj =>
            rw [List.get?_cons_succ] at hy
            have := h3 jj y hy hfy
            rw [show i + 1 + jj = i + (jj + 1) from by omega] at this
            exact this
        · intro j y hy hby
          cases j with
          | zero =>
            rw [List.get?_cons_zero] at hy
            injection hy with hy
            subst hy
            rw [hby] at hb
            simp at hb
          | succ jj =>
            rw [List.get?_cons_succ] at hy
            have := h4 jj y hy hby
            rw [show i + 1 + jj = i + (jj + 1) from by omega] at this
            exact this

/-- Every jump target in the list is a valid instruction index. -/
def targetsBounded (l : List Instruction) : Prop :=
  ∀ j t, (l.get? j = some (.JumpForward t) → t < l.length)
       ∧ (l.get? j = some (.JumpBackward t) → t < l.length)

/-- Successful compilation produces only in-bounds jump targets. -/
theorem optimize_targetsBounded (tokens : List Token) (instrs : List Instruction)
    (h : Optimizer.optimize tokens = .ok instrs) : targetsBounded instrs := by
  obtain ⟨ps, hm, hpairs⟩ := optimize_matchingPairs tokens instrs h
  unfold matchingPairs at hm
  cases hscan : scanAux instrs 0 [] [] with
  | none => rw [hscan] at hm; cases hm
  | some v =>
    obtain ⟨stk, qs⟩ := v
    rw [hscan] at hm
    cases stk with
    | cons a b => cases hm
    | nil =>
      simp only [] at hm
      injection hm with hm
      subst hm
      obtain ⟨-, -, h3, h4⟩ := scanAux_coverage instrs 0 [] [] [] qs hscan
      intro j t
      constructor
      · intro hj
        rcases h3 j _ hj rfl with hc | ⟨b, hb⟩
        · cases hc
        · rw [Nat.zero_add] at hb
          obtain ⟨hlt, hlen, hfwd, -⟩ := hpairs (j, b) hb
          rw [hj] at hfwd
          injection hfwd with hfwd
          injection hfwd with hfwd
          omega
      · intro hj
        obtain ⟨a, ha⟩ := h4 j _ hj rfl
        rw [Nat.zero_add] at ha
        obtain ⟨hlt, hlen, -, hbwd⟩ := hpairs (a, j) ha
        rw [hj] at hbwd
        injection hbwd with hbwd
        injection hbwd with hbwd
        omega

/-- A successful input loop keeps program, tape length and cell pointer,
and advances the instruction pointer once. -/
theorem runInputLoop_ok_state (n : Nat) : ∀ s s2 : Interpreter,
    runInputLoop n s = (s2, none) →
    s2.instructions = s.instructions ∧ s2.memory.length = s.memory.length
    ∧ s2.pointer = s.pointer ∧ s2.instruction_pointer = s.instruction_pointer + 1 := by
  induction n with
  | zero =>
    intro s s2 h
    unfold runInputLoop at h
    injection h with h1 h2
    subst h1
    exact ⟨rfl, rfl, rfl, rfl⟩
  | succ n ih =>
    intro s s2 h
    unfold runInputLoop at h
    cases hin : s.input with
    | nil => rw [hin] at h; simp only [] at h; injection h with h1 h2; cases h2
    | cons b rest =>
      rw [hin] at h
      simp only [] at h
      by_cases hp : s.pointer < s.memory.length
      · rw [if_pos hp] at h
        obtain ⟨h1, h2, h3, h4⟩ := ih _ _ h
        refine ⟨h1, ?_, h3, h4⟩
        rw [h2]; simp
      · rw [if_neg hp] at h; injection h with h1 h2; cases h2

/-- The input loop never changes the program. -/
theorem runInputLoop_instructions (n : Nat) : ∀ s : Interpreter,
    (runInputLoop n s).1.instructions = s.instructions := by
  induction n with
  | zero => intro s; rfl
  | succ n ih =>
    intro s
    unfold runInputLoop
    cases s.input with
    | nil => rfl
    | cons b rest =>
      simp only []
      by_cases hp : s.pointer < s.memory.length
      · rw [if_pos hp]; rw [ih]
      · rw [if_neg hp]

/-- No instruction changes the program. -/
theorem execute_instructions (s : Interpreter) :
    (execute_instruction s).1.instructions = s.instructions := by
  unfold execute_instruction
  cases hget : s.instructions.get? s.instruction_pointer with
  | none => rfl
  | some inst =>
    cases inst with
    | MoveRight count =>
      simp only []
      split <;> rfl
    | MoveLeft count => simp only []; split <;> rfl
    | Increment count => simp only []; split <;> rfl
    | Decrement count => simp only []; split <;> rfl
    | Output count =>
      simp only []
      split
      · rfl
      · split <;> rfl
    | Input count => exact runInputLoop_instructions count s
    | JumpForward target =>
      simp only []
      split
      · split <;> rfl
      · rfl
    | JumpBackward target =>
      simp only []
      split
      · split <;> rfl
      · rfl

/-- The run loop never changes the program. -/
theorem run_instructions : ∀ (fuel : Nat) (s : Interpreter),
    (run fuel s).1.instructions = s.instructions := by
  intro fuel
  induction fuel with
  | zero =>
    intro s
    unfold run
    split <;> rfl
  | succ fuel ih =>
    intro s
    unfold run
    split
    · cases hexec : execute_instruction s with
      | mk s2 of =>
        cases of with
        | none =>
          simp only []
          rw [ih s2]
          have := execute_instructions s
          rw [hexec] at this
          exact this
        | some f =>
          simp only []
          have := execute_instructions s
          rw [hexec] at this
          exact this
    · rfl

/-- The interpreter state invariant of the specification: the program is
the compiled sequence, the tape keeps its configured length, the cell
pointer is inside the tape, and the instruction pointer is at most the
instruction count. -/
def StateOk (instrs : List Instruction) (msize : Nat) (s : Interpreter) : Prop :=
  s.instructions = instrs ∧ s.memory.length = msize ∧ s.pointer < msize
  ∧ s.instruction_pointer ≤ instrs.length

/-- One successful execution step preserves `StateOk`, given in-bounds
jump targets. -/
theorem stepOk_preserves (instrs : List Instruction) (msize : Nat)
    (hb : targetsBounded instrs) (s s2 : Interpreter)
    (hst : StateOk instrs msize s) (hstep : stepOk s s2) : StateOk instrs msize s2 := by
  obtain ⟨hinst, hmem, hptr, hip⟩ := hst
  obtain ⟨hlt, hexec⟩ := hstep
  rw [hinst] at hlt
  unfold execute_instruction at hexec
  cases hget : s.instructions.get? s.instruction_pointer with
  | none => rw [hget] at hexec; injection hexec with h1 h2; cases h2
  | some inst =>
    rw [hget] at hexec
    cases inst with
    | MoveRight count =>
      simp only [] at hexec
      by_cases hc : usizeWrapAdd s.pointer count ≥ s.memory.length
      · rw [if_pos hc] at hexec; injection hexec with h1 h2; cases h2
      · rw [if_neg hc] at hexec
        injection hexec with h1 h2
        subst h1
        exact ⟨hinst, hmem, by dsimp only; omega, by dsimp only; omega⟩
    | MoveLeft count =>
      simp only [] at hexec
      by_cases hc : s.pointer < count
      · rw [if_pos hc] at hexec; injection hexec with h1 h2; cases h2
      · rw [if_neg hc] at hexec
        injection hexec with h1 h2
        subst h1
        exact ⟨hinst, hmem, by dsimp only; omega, by dsimp only; omega⟩
    | Increment count =>
      simp only [] at hexec
      by_cases hc : s.pointer < s.memory.length
      · rw [if_pos hc] at hexec
        injection hexec with h1 h2
        subst h1
        exact ⟨hinst, by dsimp only; simp [hmem], hptr, by dsimp only; omega⟩
      · rw [if_neg hc] at hexec; injection hexec with h1 h2; cases h2
    | Decrement count =>
      simp only [] at hexec
      by_cases hc : s.pointer < s.memory.length
      · rw [if_pos hc] at hexec
        injection hexec with h1 h2
        subst h1
        exact ⟨hinst, by dsimp only; simp [hmem], hptr, by dsimp only; omega⟩
      · rw [if_neg hc] at hexec; injection hexec with h1 h2; cases h2
    | Output count =>
      simp only [] at hexec
      by_cases hz : count = 0
      · rw [if_pos hz] at hexec
        injection hexec with h1 h2
        subst h1
        exact ⟨hinst, hmem, hptr, by dsimp only; omega⟩
      · rw [if_neg hz] at hexec
        by_cases hc : s.pointer < s.memory.length
        · rw [if_pos hc] at hexec
          injection hexec with h1 h2
          subst h1
          exact ⟨hinst, hmem, hptr, by dsimp only; omega⟩
        · rw [if_neg hc] at hexec; injection hexec with h1 h2; cases h2
    | Input count =>
      obtain ⟨h1, h2, h3, h4⟩ := runInputLoop_ok_state count s s2 hexec
      rw [hinst] at h1
      exact ⟨h1, by omega, by omega, by omega⟩
    | JumpForward target =>
      simp only [] at hexec
      by_cases hc : s.pointer < s.memory.length
      · rw [if_pos hc] at hexec
        rw [hinst] at hget
        have htb := (hb s.instruction_pointer target).1 hget
        by_cases hz : s.memory.getD s.pointer 0 = 0
        · rw [if_pos hz] at hexec
          injection hexec with h1 h2
          subst h1
          exact ⟨hinst, hmem, hptr, by dsimp only; omega⟩
        · rw [if_neg hz] at hexec
          injection hexec with h1 h2
          subst h1
          exact ⟨hinst, hmem, hptr, by dsimp only; omega⟩
      · rw [if_neg hc] at hexec; injection hexec with h1 h2; cases h2
    | JumpBackward target =>
      simp only [] at hexec
      by_cases hc : s.pointer < s.memory.length
      · rw [if_pos hc] at hexec
        rw [hinst] at hget
        have htb := (hb s.instruction_pointer target).2 hget
        by_cases hz : s.memory.getD s.pointer 0 = 0
        · rw [if_pos hz] at hexec
          injection hexec with h1 h2
          subst h1
          exact ⟨hinst, hmem, hptr, by dsimp only; omega⟩
        · rw [if_neg hz] at hexec
          injection hexec with h1 h2
          subst h1
          exact ⟨hinst, hmem, hptr, by dsimp only; omega⟩
      · rw [if_neg hc] at hexec; injection hexec with h1 h2; cases h2

/-- `StateOk` holds in every state reachable by successful steps. -/
theorem reach_StateOk (instrs : List Instruction) (msize : Nat)
    (hb : targetsBounded instrs) (s0 s : Interpreter)
    (h0 : StateOk instrs msize s0) (hr : Relation.ReflTransGen stepOk s0 s) :
    StateOk instrs msize s := by
  induction hr with
  | refl => exact h0
  | tail hab hbc ih => exact stepOk_preserves instrs msize hb _ _ ih hbc

/-- A terminating run reaches its final state by successful steps. -/
theorem run_done_reach : ∀ (fuel : Nat) (s sf : Interpreter),
    run fuel s = (sf, .done) → Relation.ReflTransGen stepOk s sf := by
  intro fuel
  induction fuel with
  | zero =>
    intro s sf h
    unfold run at h
    by_cases hc : s.instruction_pointer < s.instructions.length
    · rw [if_pos hc] at h; injection h with h1 h2; cases h2
    · rw [if_neg hc] at h; injection h with h1 h2; subst h1; exact .refl
  | succ fuel ih =>
    intro s sf h
    unfold run at h
    by_cases hc : s.instruction_pointer < s.instructions.length
    · rw [if_pos hc] at h
      cases hexec : execute_instruction s with
      | mk s2 of =>
        rw [hexec] at h
        cases of with
        | none =>
          simp only [] at h
          exact Relation.ReflTransGen.head ⟨hc, hexec⟩ (ih s2 sf h)
        | some f => simp only [] at h; injection h with h1 h2; cases h2
    · rw [if_neg hc] at h; injection h with h1 h2; subst h1; exact .refl

/-- A run that reports `done` stopped with the instruction pointer no
longer inside the program. -/
theorem run_done_not_lt : ∀ (fuel : Nat) (s sf : Interpreter),
    run fuel s = (sf, .done) →
    ¬ (sf.instruction_pointer < sf.instructions.length) := by
  intro fuel
  induction fuel with
  | zero =>
    intro s sf h
    unfold run at h
    by_cases hc : s.instruction_pointer < s.instructions.length
    · rw [if_pos hc] at h; injection h with h1 h2; cases h2
    · rw [if_neg hc] at h; injection h with h1 h2; subst h1; exact hc
  | succ fuel ih =>
    intro s sf h
    unfold run at h
    by_cases hc : s.instruction_pointer < s.instructions.length
    · rw [if_pos hc] at h
      cases hexec : execute_instruction s with
      | mk s2 of =>
        rw [hexec] at h
        cases of with
        | none => simp only [] at h; exact ih s2 sf h
        | some f => simp only [] at h; injection h with h1 h2; cases h2
    · rw [if_neg hc] at h; injection h with h1 h2; subst h1; exact hc

/-- A faulting instruction leaves the instruction pointer and the program
unchanged. -/
theorem execute_fault_frame (s s2 : Interpreter) (f : Fault)
    (h : execute_instruction s = (s2, some f)) :
    s2.instruction_pointer = s.instruction_pointer ∧ s2.instructions = s.instructions := by
  unfold execute_instruction at h
  cases hget : s.instructions.get? s.instruction_pointer with
  | none => rw [hget] at h; injection h with h1 h2; subst h1; exact ⟨rfl, rfl⟩
  | some inst =>
    rw [hget] at h
    cases inst with
    | MoveRight count =>
      simp only [] at h
      by_cases hc : usizeWrapAdd s.pointer count ≥ s.memory.length
      · rw [if_pos hc] at h; injection h with h1 h2; subst h1; exact ⟨rfl, rfl⟩
      · rw [if_neg hc] at h; injection h with h1 h2; cases h2
    | MoveLeft count =>
      simp only [] at h
      by_cases hc : s.pointer < count
      · rw [if_pos hc] at h; injection h with h1 h2; subst h1; exact ⟨rfl, rfl⟩
      · rw [if_neg hc] at h; injection h with h1 h2; cases h2
    | Increment count =>
      simp only [] at h
      by_cases hc : s.pointer < s.memory.length
      · rw [if_pos hc] at h; injection h with h1 h2; cases h2
      · rw [if_neg hc] at h; injection h with h1 h2; subst h1; exact ⟨rfl, rfl⟩
    | Decrement count =>
      simp only [] at h
      by_cases hc : s.pointer < s.memory.length
      · rw [if_pos hc] at h; injection h with h1 h2; cases h2
      · rw [if_neg hc] at h; injection h with h1 h2; subst h1; exact ⟨rfl, rfl⟩
    | Output count =>
      simp only [] at h
      by_cases hz : count = 0
      · rw [if_pos hz] at h; injection h with h1 h2; cases h2
      · rw [if_neg hz] at h
        by_cases hc : s.pointer < s.memory.length
        · rw [if_pos hc] at h; injection h with h1 h2; cases h2
        · rw [if_neg hc] at h; injection h with h1 h2; subst h1; exact ⟨rfl, rfl⟩
    | Input count =>
      obtain ⟨h1, h2, -, -, -⟩ := runInputLoop_fault_state count s s2 f h
      exact ⟨h1, h2⟩
    | JumpForward target =>
      simp only [] at h
      by_cases hc : s.pointer < s.memory.length
      · rw [if_pos hc] at h
        by_cases hz : s.memory.getD s.pointer 0 = 0
        · rw [if_pos hz] at h; injection h with h1 h2; cases h2
        · rw [if_neg hz] at h; injection h with h1 h2; cases h2
      · rw [if_neg hc] at h; injection h with h1 h2; subst h1; exact ⟨rfl, rfl⟩
    | JumpBackward target =>
      simp only [] at h
      by_cases hc : s.pointer < s.memory.length
      · rw [if_pos hc] at h
        by_cases hz : s.memory.getD s.pointer 0 = 0
        · rw [if_pos hz] at h; injection h with h1 h2; cases h2
        · rw [if_neg hz] at h; injection h with h1 h2; cases h2
      · rw [if_neg hc] at h; injection h with h1 h2; subst h1; exact ⟨rfl, rfl⟩

/-- A run that faults stops with the instruction pointer still inside
the program. -/
theorem run_fault_lt : ∀ (fuel : Nat) (s sf : Interpreter) (f : Fault),
    run fuel s = (sf, .fault f) →
    sf.instruction_pointer < sf.instructions.length := by
  intro fuel
  induction fuel with
  | zero =>
    intro s sf f h
    unfold run at h
    by_cases hc : s.instruction_pointer < s.instructions.length
    · rw [if_pos hc] at h; injection h with h1 h2; cases h2
    · rw [if_neg hc] at h; injection h with h1 h2; cases h2
  | succ fuel ih =>
    intro s sf f h
    unfold run at h
    by_cases hc : s.instruction_pointer < s.instructions.length
    · rw [if_pos hc] at h
      cases hexec : execute_instruction s with
      | mk s2 of =>
        rw [hexec] at h
        cases of with
        | none => simp only [] at h; exact ih s2 sf f h
        | some g =>
          simp only [] at h
          injection h with h1 h2
          subst h1
          obtain ⟨e1, e2⟩ := execute_fault_frame s s2 g hexec
          rw [e1, e2]
          exact hc
    · rw [if_neg hc] at h; injection h with h1 h2; cases h2

/-- A run that exhausts its fuel stops with the instruction pointer still
inside the program. -/
theorem run_outOfFuel_lt : ∀ (fuel : Nat) (s sf : Interpreter),
    run fuel s = (sf, .outOfFuel) →
    sf.instruction_pointer < sf.instructions.length := by
  intro fuel
  induction fuel with
  | zero =>
    intro s sf h
    unfold run at h
    by_cases hc : s.instruction_pointer < s.instructions.length
    · rw [if_pos hc] at h; injection h with h1 h2; subst h1; exact hc
    · rw [if_neg hc] at h; injection h with h1 h2; cases h2
  | succ fuel ih =>
    intro s sf h
    unfold run at h
    by_cases hc : s.instruction_pointer < s.instructions.length
    · rw [if_pos hc] at h
      cases hexec : execute_instruction s with
      | mk s2 of =>
        rw [hexec] at h
        cases of with
        | none => simp only [] at h; exact ih s2 sf h
        | some g => simp only [] at h; injection h with h1 h2; cases h2
    · rw [if_neg hc] at h; injection h with h1 h2; cases h2

/-- C9: for every instruction sequence produced by successful compilation
and every positive tape length, each state reached by successful steps
(each state in which an instruction is about to execute, and the terminal
state) keeps the cell pointer in [0, tape length) and the instruction
pointer in [0, instruction count]; and the run loop reports termination
exactly when the instruction pointer equals the instruction count. -/
theorem claim9_state_invariant (tokens : List Token) (instrs : List Instruction)
    (cfg : InterpreterConfig) (input : List Nat)
    (hc : Optimizer.optimize tokens = .ok instrs)
    (hm : 0 < cfg.memory_size) :
    (∀ s, Relation.ReflTransGen stepOk (Interpreter.new instrs cfg input) s →
        s.pointer < cfg.memory_size ∧ s.instruction_pointer ≤ instrs.length
        ∧ s.memory.length = cfg.memory_size)
    ∧ (∀ (fuel : Nat) (s : Interpreter),
        Relation.ReflTransGen stepOk (Interpreter.new instrs cfg input) s →
        ((run fuel s).2 = .done ↔
          (run fuel s).1.instruction_pointer = instrs.length)) := by
  have hb := optimize_targetsBounded tokens instrs hc
  have h0 : StateOk instrs cfg.memory_size (Interpreter.new instrs cfg input) :=
    ⟨rfl, by simp [Interpreter.new], by simpa [Interpreter.new] using hm,
      by simp [Interpreter.new]⟩
  constructor
  · intro s hr
    obtain ⟨-, h2, h3, h4⟩ := reach_StateOk instrs cfg.memory_size hb _ s h0 hr
    exact ⟨h3, h4, h2⟩
  · intro fuel s hr
    have hsOk := reach_StateOk instrs cfg.memory_size hb _ s h0 hr
    cases hrun : run fuel s with
    | mk sf r =>
      have hinstr_sf : sf.instructions = instrs := by
        have hri := run_instructions fuel s
        rw [hrun] at hri
        simp only [] at hri
        rw [hri]
        exact hsOk.1
      constructor
      · intro hdone
        simp only [] at hdone
        subst hdone
        have hreach2 := run_done_reach fuel s sf hrun
        obtain ⟨-, -, -, hle⟩ := reach_StateOk instrs cfg.memory_size hb _ sf hsOk hreach2
        have hnot := run_done_not_lt fuel s sf hrun
        rw [hinstr_sf] at hnot
        simp only []
        omega
      · intro hip
        simp only [] at hip
        cases r with
        | done => rfl
        | fault f =>
          have := run_fault_lt fuel s sf f hrun
          rw [hinstr_sf] at this
          omega
        | outOfFuel =>
          have := run_outOfFuel_lt fuel s sf hrun
          rw [hinstr_sf] at this
          omega

/-- Witness for C9 on the compiled form of `"+"` with a one-cell tape. -/
theorem claim9_state_invariant_witness :
    (Interpreter.new [.Increment 1] ⟨1, false, true⟩ []).pointer < 1
    ∧ (Interpreter.new [.Increment 1] ⟨1, false, true⟩ []).instruction_pointer ≤
        ([Instruction.Increment 1] : List Instruction).length
    ∧ (Interpreter.new [.Increment 1] ⟨1, false, true⟩ []).memory.length = 1
    ∧ ((run 2 (Interpreter.new [.Increment 1] ⟨1, false, true⟩ [])).2 = .done ↔
        (run 2 (Interpreter.new [.Increment 1] ⟨1, false, true⟩ [])).1.instruction_pointer =
          ([Instruction.Increment 1] : List Instruction).length) :=
  have h := claim9_state_invariant (tokenize "+".data Position.default) [.Increment 1]
    ⟨1, false, true⟩ [] (by decide) (by decide)
  ⟨(h.1 _ .refl).1, (h.1 _ .refl).2.1, (h.1 _ .refl).2.2, h.2 2 _ .refl⟩

/-- One successful iteration of the run loop consumes one unit of fuel. -/
theorem run_step (fuel : Nat) (s s2 : Interpreter)
    (hlt : s.instruction_pointer < s.instructions.length)
    (hexec : execute_instruction s = (s2, none)) :
    run (fuel + 1) s = run fuel s2 := by
  conv_lhs => unfold run
  rw [if_pos hlt, hexec]

/-- The run loop reports `done` as soon as the instruction pointer leaves
the program. -/
theorem run_halt (fuel : Nat) (s : Interpreter)
    (h : ¬ s.instruction_pointer < s.instructions.length) :
    run fuel s = (s, .done) := by
  cases fuel with
  | zero => unfold run; rw [if_neg h]
  | succ fuel => unfold run; rw [if_neg h]

/-- An in-bounds move-right: the pointer wraps-and-moves, the instruction
pointer advances. -/
theorem exec_moveRight_ok (s : Interpreter) (count : Nat)
    (hget : s.instructions.get? s.instruction_pointer = some (.MoveRight count))
    (hb : usizeWrapAdd s.pointer count < s.memory.length) :
    execute_instruction s =
      ({ s with pointer := usizeWrapAdd s.pointer count,
                instruction_pointer := s.instruction_pointer + 1 }, none) := by
  unfold execute_instruction
  rw [hget]
  simp only []
  rw [if_neg (by omega)]

/-- An in-bounds move-left. -/
theorem exec_moveLeft_ok (s : Interpreter) (count : Nat)
    (hget : s.instructions.get? s.instruction_pointer = some (.MoveLeft count))
    (hb : ¬ s.pointer < count) :
    execute_instruction s =
      ({ s with pointer := s.pointer - count,
                instruction_pointer := s.instruction_pointer + 1 }, none) := by
  unfold execute_instruction
  rw [hget]
  simp only []
  rw [if_neg hb]

/-- An increment with the pointer inside the tape. -/
theorem exec_increment (s : Interpreter) (count : Nat)
    (hget : s.instructions.get? s.instruction_pointer = some (.Increment count))
    (hp : s.pointer < s.memory.length) :
    execute_instruction s =
      ({ s with memory := s.memory.set s.pointer (u8WrapAdd (s.memory.getD s.pointer 0) count),
                instruction_pointer := s.instruction_pointer + 1 }, none) := by
  unfold execute_instruction
  rw [hget]
  simp only []
  rw [if_pos hp]

/-- A decrement with the pointer inside the tape. -/
theorem exec_decrement (s : Interpreter) (count : Nat)
    (hget : s.instructions.get? s.instruction_pointer = some (.Decrement count))
    (hp : s.pointer < s.memory.length) :
    execute_instruction s =
      ({ s with memory := s.memory.set s.pointer (u8WrapSub (s.memory.getD s.pointer 0) count),
                instruction_pointer := s.instruction_pointer + 1 }, none) := by
  unfold execute_instruction
  rw [hget]
  simp only []
  rw [if_pos hp]

/-- A forward jump with the pointer inside the tape: taken exactly when
the current cell is zero. -/
theorem exec_jumpForward (s : Interpreter) (target : Nat)
    (hget : s.instructions.get? s.instruction_pointer = some (.JumpForward target))
    (hp : s.pointer < s.memory.length) :
    execute_instruction s =
      ((if s.memory.getD s.pointer 0 = 0
          then { s with instruction_pointer := target }
          else { s with instruction_pointer := s.instruction_pointer + 1 }), none) := by
  unfold execute_instruction
  rw [hget]
  simp only []
  rw [if_pos hp]
  by_cases hz : s.memory.getD s.pointer 0 = 0
  · rw [if_pos hz, if_pos hz]
  · rw [if_neg hz, if_neg hz]

/-- A backward jump with the pointer inside the tape: taken exactly when
the current cell is non-zero. -/
theorem exec_jumpBackward (s : Interpreter) (target : Nat)
    (hget : s.instructions.get? s.instruction_pointer = some (.JumpBackward target))
    (hp : s.pointer < s.memory.length) :
    execute_instruction s =
      ((if s.memory.getD s.pointer 0 = 0
          then { s with instruction_pointer := s.instruction_pointer + 1 }
          else { s with instruction_pointer := target }), none) := by
  unfold execute_instruction
  rw [hget]
  simp only []
  rw [if_pos hp]
  by_cases hz : s.memory.getD s.pointer 0 = 0
  · rw [if_pos hz, if_pos hz]
  · rw [if_neg hz, if_neg hz]

/-- Reading back the written cell. -/
theorem getD_set_self (l : List Nat) (p v : Nat) (h : p < l.length) :
    (l.set p v).getD p 0 = v := by
  have h2 : (l.set p v).get? p = some v := List.get?_set_eq_of_lt v h
  have h3 : (l.set p v).getD p 0 = ((l.set p v).get? p).getD 0 := by
    simp [List.getD_eq_getElem?_getD, List.get?_eq_getElem?]
  rw [h3, h2]
  rfl

/-- Writing one cell leaves the others unchanged. -/
theorem getD_set_other (l : List Nat) (p q v : Nat) (h : p ≠ q) :
    (l.set p v).getD q 0 = l.getD q 0 := by
  have h2 : (l.set p v).get? q = l.get? q := List.get?_set_ne v l h
  have h3 : (l.set p v).getD q 0 = ((l.set p v).get? q).getD 0 := by
    simp [List.getD_eq_getElem?_getD, List.get?_eq_getElem?]
  have h4 : l.getD q 0 = (l.get? q).getD 0 := by
    simp [List.getD_eq_getElem?_getD, List.get?_eq_getElem?]
  rw [h3, h2, h4]

/-- An in-bounds read succeeds with the default-read value. -/
theorem get?_eq_some_getD (l : List Nat) (p : Nat) (h : p < l.length) :
    l.get? p = some (l.getD p 0) := by
  have h4 : l.getD p 0 = (l.get? p).getD 0 := by
    simp [List.getD_eq_getElem?_getD, List.get?_eq_getElem?]
  cases hg : l.get? p with
  | none => rw [List.get?_eq_none] at hg; omega
  | some v => rw [h4, hg]; rfl

/-- The compiled form of `"+++[>+<-]"` (proved so in the C8 theorem). -/
def counterProg : List Instruction :=
  [.Increment 3, .JumpForward 6, .MoveRight 1, .Increment 1,
   .MoveLeft 1, .Decrement 1, .JumpBackward 1]

/-- `exec_moveRight_ok` specialised to a literal state. -/
theorem exec2_moveRight (instrs : List Instruction) (mem : List Nat) (p ip : Nat)
    (cfg : InterpreterConfig) (inp out : List Nat) (count p2 : Nat)
    (hget : instrs.get? ip = some (.MoveRight count))
    (hp2 : usizeWrapAdd p count = p2) (hb : p2 < mem.length) :
    execute_instruction ⟨instrs, mem, p, ip, cfg, inp, out⟩ =
      (⟨instrs, mem, p2, ip + 1, cfg, inp, out⟩, none) := by
  have h := exec_moveRight_ok ⟨instrs, mem, p, ip, cfg, inp, out⟩ count hget
    (by dsimp only; rw [hp2]; exact hb)
  rw [h]
  dsimp only
  rw [hp2]

/-- `exec_moveLeft_ok` specialised to a literal state. -/
theorem exec2_moveLeft (instrs : List Instruction) (mem : List Nat) (p ip : Nat)
    (cfg : InterpreterConfig) (inp out : List Nat) (count p2 : Nat)
    (hget : instrs.get? ip = some (.MoveLeft count))
    (hp2 : p - count = p2) (hb : ¬ p < count) :
    execute_instruction ⟨instrs, mem, p, ip, cfg, inp, out⟩ =
      (⟨instrs, mem, p2, ip + 1, cfg, inp, out⟩, none) := by
  have h := exec_moveLeft_ok ⟨instrs, mem, p, ip, cfg, inp, out⟩ count hget hb
  rw [h]
  dsimp only
  rw [hp2]

/-- `exec_increment` specialised to a literal state. -/
theorem exec2_increment (instrs : List Instruction) (mem : List Nat) (p ip : Nat)
    (cfg : InterpreterConfig) (inp out : List Nat) (count v : Nat)
    (hget : instrs.get? ip = some (.Increment count))
    (hp : p < mem.length) (hv : u8WrapAdd (mem.getD p 0) count = v) :
    execute_instruction ⟨instrs, mem, p, ip, cfg, inp, out⟩ =
      (⟨instrs, mem.set p v, p, ip + 1, cfg, inp, out⟩, none) := by
  have h := exec_increment ⟨instrs, mem, p, ip, cfg, inp, out⟩ count hget hp
  rw [h]
  dsimp only
  rw [hv]

/-- `exec_decrement` specialised to a literal state. -/
theorem exec2_decrement (instrs : List Instruction) (mem : List Nat) (p ip : Nat)
    (cfg : InterpreterConfig) (inp out : List Nat) (count v : Nat)
    (hget : instrs.get? ip = some (.Decrement count))
    (hp : p < mem.length) (hv : u8WrapSub (mem.getD p 0) count = v) :
    execute_instruction ⟨instrs, mem, p, ip, cfg, inp, out⟩ =
      (⟨instrs, mem.set p v, p, ip + 1, cfg, inp, out⟩, none) := by
  have h := exec_decrement ⟨instrs, mem, p, ip, cfg, inp, out⟩ count hget hp
  rw [h]
  dsimp only
  rw [hv]

/-- A taken forward jump on a literal state. -/
theorem exec2_jumpForward_taken (instrs : List Instruction) (mem : List Nat) (p ip : Nat)
    (cfg : InterpreterConfig) (inp out : List Nat) (target : Nat)
    (hget : instrs.get? ip = some (.JumpForward target))
    (hp : p < mem.length) (hz : mem.getD p 0 = 0) :
    execute_instruction ⟨instrs, mem, p, ip, cfg, inp, out⟩ =
      (⟨instrs, mem, p, target, cfg, inp, out⟩, none) := by
  have h := exec_jumpForward ⟨instrs, mem, p, ip, cfg, inp, out⟩ target hget hp
  rw [h, if_pos hz]

/-- A skipped forward jump on a literal state. -/
theorem exec2_jumpForward_skip (instrs : List Instruction) (mem : List Nat) (p ip : Nat)
    (cfg : InterpreterConfig) (inp out : List Nat) (target : Nat)
    (hget : instrs.get? ip = some (.JumpForward target))
    (hp : p < mem.length) (hz : mem.getD p 0 ≠ 0) :
    execute_instruction ⟨instrs, mem, p, ip, cfg, inp, out⟩ =
      (⟨instrs, mem, p, ip + 1, cfg, inp, out⟩, none) := by
  have h := exec_jumpForward ⟨instrs, mem, p, ip, cfg, inp, out⟩ target hget hp
  rw [h, if_neg hz]

/-- A taken backward jump on a literal state. -/
theorem exec2_jumpBackward_taken (instrs : List Instruction) (mem : List Nat) (p ip : Nat)
    (cfg : InterpreterConfig) (inp out : List Nat) (target : Nat)
    (hget : instrs.get? ip = some (.JumpBackward target))
    (hp : p < mem.length) (hz : mem.getD p 0 ≠ 0) :
    execute_instruction ⟨instrs, mem, p, ip, cfg, inp, out⟩ =
      (⟨instrs, mem, p, target, cfg, inp, out⟩, none) := by
  have h := exec_jumpBackward ⟨instrs, mem, p, ip, cfg, inp, out⟩ target hget hp
  rw [h, if_neg hz]

/-- A skipped backward jump on a literal state. -/
theorem exec2_jumpBackward_skip (instrs : List Instruction) (mem : List Nat) (p ip : Nat)
    (cfg : InterpreterConfig) (inp out : List Nat) (target : Nat)
    (hget : instrs.get? ip = some (.JumpBackward target))
    (hp : p < mem.length) (hz : mem.getD p 0 = 0) :
    execute_instruction ⟨instrs, mem, p, ip, cfg, inp, out⟩ =
      (⟨instrs, mem, p, ip + 1, cfg, inp, out⟩, none) := by
  have h := exec_jumpBackward ⟨instrs, mem, p, ip, cfg, inp, out⟩ target hget hp
  rw [h, if_pos hz]

/-- Each pass of the loop of `"+++[>+<-]"` moves one unit from cell 0 to
cell 1: starting at the loop head with cell 0 holding `k`, execution
terminates after `6k + 3` loop-iteration steps with cell 0 zero and cell 1
increased by `k` (mod 256), on any tape of length at least 2. -/
theorem counter_loop_run : ∀ (k : Nat), k < 256 →
    ∀ (m : Nat) (mem : List Nat) (cfg : InterpreterConfig) (inp out : List Nat),
      2 ≤ mem.length → mem.getD 0 0 = k → mem.getD 1 0 = m → m < 256 →
      ∃ memf : List Nat,
        run (6 * k + 3) ⟨counterProg, mem, 0, 1, cfg, inp, out⟩ =
          (⟨counterProg, memf, 0, 7, cfg, inp, out⟩, .done)
        ∧ memf.getD 0 0 = 0 ∧ memf.getD 1 0 = (m + k) % 256
        ∧ memf.length = mem.length := by
  intro k
  induction k with
  | zero =>
    intro hk m mem cfg inp out hlen h0 h1 hm
    have e1 := exec2_jumpForward_taken counterProg mem 0 1 cfg inp out 6 rfl
      (by omega) h0
    have e2 := exec2_jumpBackward_skip counterProg mem 0 6 cfg inp out 1 rfl
      (by omega) h0
    refine ⟨mem, ?_, h0, by rw [h1]; omega, rfl⟩
    calc run (6 * 0 + 3) ⟨counterProg, mem, 0, 1, cfg, inp, out⟩
        = run 2 ⟨counterProg, mem, 0, 6, cfg, inp, out⟩ := by
          rw [show 6 * 0 + 3 = 2 + 1 from by norm_num]
          exact run_step 2 _ _ (by simp [counterProg]) e1
      _ = run 1 ⟨counterProg, mem, 0, 6 + 1, cfg, inp, out⟩ :=
          run_step 1 _ _ (by simp [counterProg]) e2
      _ = (⟨counterProg, mem, 0, 7, cfg, inp, out⟩, .done) :=
          run_halt 1 _ (by simp [counterProg])
  | succ k ih =>
    intro hk m mem cfg inp out hlen h0 h1 hm
    have e1 := exec2_jumpForward_skip counterProg mem 0 1 cfg inp out 6 rfl
      (by omega) (by rw [h0]; omega)
    have e2 := exec2_moveRight counterProg mem 0 2 cfg inp out 1 1 rfl
      (by norm_num [usizeWrapAdd, USIZE]) (by omega)
    have e3 := exec2_increment counterProg mem 1 3 cfg inp out 1 ((m + 1) % 256) rfl
      (by omega) (by rw [h1]; rfl)
    have hlen1 : (mem.set 1 ((m + 1) % 256)).length = mem.length := by simp
    have e4 := exec2_moveLeft counterProg (mem.set 1 ((m + 1) % 256)) 1 4 cfg inp out 1 0 rfl
      rfl (by omega)
    have h0mid : (mem.set 1 ((m + 1) % 256)).getD 0 0 = k + 1 := by
      rw [getD_set_other _ _ _ _ (by omega)]; exact h0
    have e5 := exec2_decrement counterProg (mem.set 1 ((m + 1) % 256)) 0 5 cfg inp out 1 k rfl
      (by rw [hlen1]; omega) (by rw [h0mid]; unfold u8WrapSub; omega)
    have hlen2 : ((mem.set 1 ((m + 1) % 256)).set 0 k).length = mem.length := by simp
    have h0fin : ((mem.set 1 ((m + 1) % 256)).set 0 k).getD 0 0 = k :=
      getD_set_self _ _ _ (by rw [hlen1]; omega)
    have h1fin : ((mem.set 1 ((m + 1) % 256)).set 0 k).getD 1 0 = (m + 1) % 256 := by
      rw [getD_set_other _ _ _ _ (by omega)]
      exact getD_set_self _ _ _ (by omega)
    by_cases hk0 : k = 0
    · subst hk0
      have e6 := exec2_jumpBackward_skip counterProg ((mem.set 1 ((m + 1) % 256)).set 0 0)
        0 6 cfg inp out 1 rfl (by rw [hlen2]; omega) h0fin
      refine ⟨(mem.set 1 ((m + 1) % 256)).set 0 0, ?_, h0fin, by rw [h1fin], hlen2⟩
      calc run (6 * (0 + 1) + 3) ⟨counterProg, mem, 0, 1, cfg, inp, out⟩
          = run 8 ⟨counterProg, mem, 0, 1 + 1, cfg, inp, out⟩ := by
            rw [show 6 * (0 + 1) + 3 = 8 + 1 from by norm_num]
            exact run_step 8 _ _ (by simp [counterProg]) e1
        _ = run 7 ⟨counterProg, mem, 1, 2 + 1, cfg, inp, out⟩ := by
            rw [show (8 : Nat) = 7 + 1 from by norm_num]
            exact run_step 7 _ _ (by simp [counterProg]) e2
        _ = run 6 ⟨counterProg, mem.set 1 ((m + 1) % 256), 1, 3 + 1, cfg, inp, out⟩ := by
            rw [show (7 : Nat) = 6 + 1 from by norm_num]
            exact run_step 6 _ _ (by simp [counterProg]) e3
        _ = run 5 ⟨counterProg, mem.set 1 ((m + 1) % 256), 0, 4 + 1, cfg, inp, out⟩ := by
            rw [show (6 : Nat) = 5 + 1 from by norm_num]
            exact run_step 5 _ _ (by simp [counterProg]) e4
        _ = run 4 ⟨counterProg, (mem.set 1 ((m + 1) % 256)).set 0 0, 0, 5 + 1, cfg,
              inp, out⟩ := by
            rw [show (5 : Nat) = 4 + 1 from by norm_num]
            exact run_step 4 _ _ (by simp [counterProg]) e5
        _ = run 3 ⟨counterProg, (mem.set 1 ((m + 1) % 256)).set 0 0, 0, 6 + 1, cfg,
              inp, out⟩ := by
            rw [show (4 : Nat) = 3 + 1 from by norm_num]
            exact run_step 3 _ _ (by simp [counterProg]) e6
        _ = (⟨counterProg, (mem.set 1 ((m + 1) % 256)).set 0 0, 0, 7, cfg, inp, out⟩,
              .done) :=
            run_halt 3 _ (by simp [counterProg])
    · have e6 := exec2_jumpBackward_taken counterProg ((mem.set 1 ((m + 1) % 256)).set 0 k)
        0 6 cfg inp out 1 rfl (by rw [hlen2]; omega) (by rw [h0fin]; omega)
      obtain ⟨memf, hrun, hf0, hf1, hflen⟩ := ih (by omega) ((m + 1) % 256)
        ((mem.set 1 ((m + 1) % 256)).set 0 k) cfg inp out (by rw [hlen2]; omega)
        h0fin h1fin (by omega)
      refine ⟨memf, ?_, hf0, by rw [hf1]; omega, by rw [hflen, hlen2]⟩
      calc run (6 * (k + 1) + 3) ⟨counterProg, mem, 0, 1, cfg, inp, out⟩
          = run (6 * k + 8) ⟨counterProg, mem, 0, 1 + 1, cfg, inp, out⟩ := by
            rw [show 6 * (k + 1) + 3 = 6 * k + 8 + 1 from by ring]
            exact run_step (6 * k + 8) _ _ (by simp [counterProg]) e1
        _ = run (6 * k + 7) ⟨counterProg, mem, 1, 2 + 1, cfg, inp, out⟩ := by
            rw [show 6 * k + 8 = 6 * k + 7 + 1 from by ring]
            exact run_step (6 * k + 7) _ _ (by simp [counterProg]) e2
        _ = run (6 * k + 6) ⟨counterProg, mem.set 1 ((m + 1) % 256), 1, 3 + 1, cfg,
              inp, out⟩ := by
            rw [show 6 * k + 7 = 6 * k + 6 + 1 from by ring]
            exact run_step (6 * k + 6) _ _ (by simp [counterProg]) e3
        _ = run (6 * k + 5) ⟨counterProg, mem.set 1 ((m + 1) % 256), 0, 4 + 1, cfg,
              inp, out⟩ := by
            rw [show 6 * k + 6 = 6 * k + 5 + 1 from by ring]
            exact run_step (6 * k + 5) _ _ (by simp [counterProg]) e4
        _ = run (6 * k + 4) ⟨counterProg, (mem.set 1 ((m + 1) % 256)).set 0 k, 0, 5 + 1,
              cfg, inp, out⟩ := by
            rw [show 6 * k + 5 = 6 * k + 4 + 1 from by ring]
            exact run_step (6 * k + 4) _ _ (by simp [counterProg]) e5
        _ = run (6 * k + 3) ⟨counterProg, (mem.set 1 ((m + 1) % 256)).set 0 k, 0, 1,
              cfg, inp, out⟩ := by
            rw [show 6 * k + 4 = 6 * k + 3 + 1 from by ring]
            exact run_step (6 * k + 3) _ _ (by simp [counterProg]) e6
        _ = (⟨counterProg, memf, 0, 7, cfg, inp, out⟩, .done) := hrun

/-- C8: `"+++[>+<-]"` compiles to `counterProg`, and executing it on a
fresh zero-initialized tape of any length at least 2 terminates
successfully with cell 0 = 0 and cell 1 = 3. -/
theorem claim8_counter_transfer (msize : Nat) (hm : 2 ≤ msize) :
    Optimizer.optimize (tokenize "+++[>+<-]".data Position.default) = .ok counterProg
    ∧ ∃ memf : List Nat,
        run 22 (Interpreter.new counterProg ⟨msize, false, true⟩ []) =
          (⟨counterProg, memf, 0, 7, ⟨msize, false, true⟩, [], []⟩, .done)
        ∧ memf.get? 0 = some 0 ∧ memf.get? 1 = some 3 := by
  refine ⟨by decide, ?_⟩
  have hlen0 : (List.replicate msize (0 : Nat)).length = msize := by simp
  have hgdr : ∀ i : Nat, (List.replicate msize (0 : Nat)).getD i 0 = 0 := by
    intro i
    simp [List.getD_eq_getElem?_getD, List.getElem?_replicate]
    split <;> rfl
  have e0 := exec2_increment counterProg (List.replicate msize 0) 0 0 ⟨msize, false, true⟩
    [] [] 3 3 rfl (by omega) (by rw [hgdr 0]; rfl)
  have hlen1 : ((List.replicate msize (0 : Nat)).set 0 3).length = msize := by simp
  have h00 : ((List.replicate msize (0 : Nat)).set 0 3).getD 0 0 = 3 :=
    getD_set_self _ _ _ (by omega)
  have h01 : ((List.replicate msize (0 : Nat)).set 0 3).getD 1 0 = 0 := by
    rw [getD_set_other _ _ _ _ (by omega)]
    exact hgdr 1
  obtain ⟨memf, hrun, hf0, hf1, hflen⟩ := counter_loop_run 3 (by norm_num) 0
    ((List.replicate msize 0).set 0 3) ⟨msize, false, true⟩ [] [] (by omega) h00 h01
    (by norm_num)
  have hflen2 : memf.length = msize := by rw [hflen, hlen1]
  refine ⟨memf, ?_, ?_, ?_⟩
  · calc run 22 (Interpreter.new counterProg ⟨msize, false, true⟩ [])
        = run 21 ⟨counterProg, (List.replicate msize 0).set 0 3, 0, 0 + 1,
            ⟨msize, false, true⟩, [], []⟩ :=
          run_step 21 _ _ (by simp [counterProg, Interpreter.new]) e0
      _ = (⟨counterProg, memf, 0, 7, ⟨msize, false, true⟩, [], []⟩, .done) := hrun
  · rw [get?_eq_some_getD _ _ (by omega), hf0]
  · rw [get?_eq_some_getD _ _ (by omega), hf1]

/-- Witness for C8 at the default configuration (tape length 30000). -/
theorem claim8_counter_transfer_witness :
    Optimizer.optimize (tokenize "+++[>+<-]".data Position.default) = .ok counterProg
    ∧ ∃ memf : List Nat,
        run 22 (Interpreter.new counterProg InterpreterConfig.default []) =
          (⟨counterProg, memf, 0, 7, InterpreterConfig.default, [], []⟩, .done)
        ∧ memf.get? 0 = some 0 ∧ memf.get? 1 = some 3 :=
  claim8_counter_transfer 30000 (by norm_num)
